import Mathlib

/-!
Shallow embedding of the `bbcode` crate (tari/bbcode-rs).

Strings are modelled as `List Char`; the parser combinators from nom 4 that
the crate uses (`tag_no_case!`, `char!`, `many0!`, `alt!`/`alt_complete!`,
`opt!`, `take_until_and_consume!`, `hex_digit1`, `digit1`, `alphanumeric1`)
are modelled by small Lean functions.  A nom parser on `&str` can return
`Ok`, `Err::Error` or `Err::Incomplete`; every parser of this crate is
invoked underneath `alt_complete!` in `coded_segment` (or has its
`Incomplete` propagate into a failure there), so at every point observable
by `segment`, `text_segment` and `parse` the distinction between `Error`
and `Incomplete` collapses into plain failure.  The embedding therefore
uses an `Option`/failure representation for the leaf combinators and notes,
at each place where nom could return `Incomplete`, why the collapse is
faithful.

The mutually recursive parser (`segment` / `coded_segment` / the tag
recognizers / `many0`) is embedded with an explicit fuel argument so that
every definition is structurally recursive and computable by the kernel.
Running out of fuel is a distinguished outcome (`PRes.out`) that poisons
the whole computation: whenever the embedded parser produces a value
(`PRes.done` / `some`), the computation never hit the fuel bound, and the
value is exactly the one computed by the unbounded recursion of the Rust
source.  Theorems about produced values are stated for every fuel and are
therefore statements about the source's runs.
-/

set_option maxRecDepth 16384

namespace Bbcode

/-- u8::to_ascii_lowercase, restricted to the chars of a &str:
only ASCII capital letters are mapped. -/
def ascii_lower (c : Char) : Char :=
  if 'A' ≤ c ∧ c ≤ 'Z' then Char.ofNat (c.toNat + 32) else c

/-- str::eq_ignore_ascii_case.  The Rust function compares the UTF-8 bytes
after ASCII-lowercasing; for two char sequences this is equivalent to
comparing the char sequences after ASCII-lowercasing, because the ASCII
fold never changes a byte's role as a leading/continuation byte. -/
def eq_ignore_ascii_case (a b : List Char) : Bool :=
  a.map ascii_lower == b.map ascii_lower

/-- The char-level content of `<impl Terminal for &str>::leads` (lib.rs
174-183): does `s` begin with a substring matching `t`, ASCII
case-insensitively?  All terminals of the crate are ASCII, so the byte
count of `t` equals its char count and the byte-level comparison of the
source agrees with this char-level one.  The source, however, slices
`s[..t.len()]` before comparing, which panics when that byte offset is not
a char boundary of `s`; see `leads_bytes` below for the byte-level model
of that behavior. -/
def str_leads (t s : List Char) : Bool :=
  decide (t.length ≤ s.length) && eq_ignore_ascii_case t (s.take t.length)

/-- The three shapes of `Terminal` implementations in lib.rs:
`()` (never matches), `&str`, and `&[&str; 2]`. -/
inductive Terminal where
  | unit
  | lit (t : List Char)
  | two (a b : List Char)

/-- `Terminal::leads` for the three implementations (lib.rs 167-190). -/
def Terminal.leads : Terminal → List Char → Bool
  | .unit, _ => false
  | .lit t, s => str_leads t s
  | .two a b, s => str_leads a s || str_leads b s

/-- decoration.rs `DecorationStyle`.  `Color` carries three `u8` channels
and `Size` a `NonZeroU8`; both are modelled as `Nat` (the parser only
produces channel values ≤ 255 and sizes in 2..=29). -/
inductive DecorationStyle where
  | Bold
  | Italic
  | Underline
  | Center
  | Color (r g b : Nat)
  | Size (n : Nat)
deriving DecidableEq

/-- list.rs `ListStyle`. -/
inductive ListStyle where
  | Unordered
  | Numeric
  | Alphabetic
deriving DecidableEq

/-- lib.rs `Segment`: the single recursive node type of the document
tree.  Borrowed `&str` fields are modelled as `List Char`. -/
inductive Segment where
  | Text (s : List Char)
  | Decorated (style : DecorationStyle) (text : List Segment)
  | Quote (attribution : Option (List Char)) (body : List Segment)
  | Code (s : List Char)
  | List (style : ListStyle) (items : List (List Segment))
  | Link (target : List Char) (text : List Segment)
  | Image (src : List Char)

/-- Outcome of a fueled embedded parser: `out` = the fuel bound was hit
(the model abstains), `fail` = the nom parser fails (Error/Incomplete),
`done v rest` = success with value `v` and unconsumed remainder `rest`. -/
inductive PRes (α : Type) where
  | out
  | fail
  | done (v : α) (rest : List Char)

def PRes.isDone {α : Type} : PRes α → Bool
  | .done _ _ => true
  | _ => false

/-- nom `tag_no_case!(t)`: match `t` at the head of `s` ASCII
case-insensitively and consume it.  nom's `Incomplete` (input a proper
caseless prefix of `t`) is collapsed into failure: wherever that happens
no other recognizer can match the same input either, and the enclosing
`alt_complete!` converts `Incomplete` to failure anyway. -/
def tag_no_case (t s : List Char) : Option (List Char) :=
  if str_leads t s then some (s.drop t.length) else none

/-- nom `tag!(t)`: case-sensitive literal match (used only for `="` in
qhead).  `Incomplete` collapsed into failure as for `tag_no_case`. -/
def tag_lit (t s : List Char) : Option (List Char) :=
  if s.take t.length == t then some (s.drop t.length) else none

/-- nom `char!(c)`: match one exact char.  `Incomplete` on empty input
collapsed into failure (the callers fail afterwards either way). -/
def char_tok (c : Char) (s : List Char) : Option (List Char) :=
  match s with
  | [] => none
  | x :: rest => if x = c then some rest else none

/-- macros.rs `take_until_no_case!(t)`: split `s` before the first ASCII
caseless occurrence of `t`, returning (consumed, rest with the occurrence
still unconsumed); when there is no occurrence the macro yields
`need_more_err`, i.e. `Incomplete` on `&str`, modelled as failure. -/
def take_until_no_case (t s : List Char) : Option (List Char × List Char) :=
  match (List.range s.length).find? (fun i => str_leads t (s.drop i)) with
  | some i => some (s.take i, s.drop i)
  | none => none

/-- nom `take_until_and_consume!(t)`: case-sensitive; consume up to and
including the first occurrence of `t`.  Absence is `Incomplete` on `&str`,
modelled as failure. -/
def take_until_and_consume (t s : List Char) : Option (List Char × List Char) :=
  match (List.range (s.length + 1)).find? (fun i => (s.drop i).take t.length == t) with
  | some i => some (s.take i, s.drop (i + t.length))
  | none => none

/-- nom streaming `hex_digit1`/`digit1`/`alphanumeric1` on `&str`: take
the nonempty maximal run of chars satisfying `p`.  Zero matching chars is
`Error`; a run that reaches the end of input is `Incomplete` in nom's
streaming semantics — both are modelled as failure, which is sound here
because every use sits under `alt_complete!` and a run-to-end always makes
the enclosing recognizer fail (the following `char!(']')` or `"]` match
has no input left). -/
def span1 (p : Char → Bool) (s : List Char) : Option (List Char × List Char) :=
  let tk := s.takeWhile p
  if tk.isEmpty then none
  else if tk.length = s.length then none
  else some (tk, s.drop tk.length)

def is_hex_digit (c : Char) : Bool :=
  ('0' ≤ c ∧ c ≤ '9') || ('a' ≤ c ∧ c ≤ 'f') || ('A' ≤ c ∧ c ≤ 'F')

def hex_val (c : Char) : Nat :=
  if c ≤ '9' then c.toNat - '0'.toNat
  else if c ≤ 'F' then c.toNat - 'A'.toNat + 10
  else c.toNat - 'a'.toNat + 10

/-- Value of a decimal digit string (str::parse, on digit-only input). -/
def dec_nat (ds : List Char) : Nat :=
  ds.foldl (fun a c => 10 * a + (c.toNat - '0'.toNat)) 0

/-- decoration.rs `rgb_color` (lines 100-123): `#` followed by exactly 3
or 6 hex digits; a 3-digit form duplicates each digit into a byte
(`r + (r << 4)` = 17 * r). -/
def rgb_color (s : List Char) : Option ((Nat × Nat × Nat) × List Char) :=
  match char_tok '#' s with
  | none => none
  | some s1 =>
    match span1 is_hex_digit s1 with
    | none => none
    | some (digits, rest) =>
      match digits with
      | [a, b, c] =>
        some ((17 * hex_val a, 17 * hex_val b, 17 * hex_val c), rest)
      | [a, b, c, d, e, f] =>
        some ((16 * hex_val a + hex_val b,
               16 * hex_val c + hex_val d,
               16 * hex_val e + hex_val f), rest)
      | _ => none

/-- Modelled from the spec: the external CSS color-name resolver
(`palette::named::from_str`), an external collaborator the spec specifies
only at its interface, `name -> optional RGB triple`.  The spec fixes that
`red` resolves to (255, 0, 0) and that `notacolor` does not resolve; only
the entries the spec names are included.  Every name the real table does
resolve is a lowercase ASCII name, so successful lookups consume the same
span in the model and in the source. -/
def palette_from_str (name : List Char) : Option (Nat × Nat × Nat) :=
  if name == "red".data then some (255, 0, 0) else none

/-- decoration.rs `css_color` (lines 125-133): an alphanumeric run
resolved through the external name table; unresolvable names fail. -/
def css_color (s : List Char) : Option ((Nat × Nat × Nat) × List Char) :=
  match span1 Char.isAlphanum s with
  | none => none
  | some (name, rest) =>
    match palette_from_str name with
    | some c => some (c, rest)
    | none => none

/-- decoration.rs `color_head` (lines 92-98): `[color=` then
`rgb_color | css_color` then `]`. -/
def color_head (s : List Char) : Option ((Nat × Nat × Nat) × List Char) :=
  match tag_no_case "[color=".data s with
  | none => none
  | some s1 =>
    match (match rgb_color s1 with | some r => some r | none => css_color s1) with
    | none => none
    | some (c, s2) =>
      match char_tok ']' s2 with
      | none => none
      | some s3 => some (c, s3)

/-- decoration.rs `size_head` (lines 181-196): `[size=` digits `]`,
parsed as u8 (`map_res`, so values above 255 fail), then verified to lie
in 2..=29 (`x >= 2 && x < 30`); `NonZeroU8::new` then always succeeds. -/
def size_head (s : List Char) : Option (Nat × List Char) :=
  match tag_no_case "[size=".data s with
  | none => none
  | some s1 =>
    match span1 Char.isDigit s1 with
    | none => none
    | some (ds, s2) =>
      match char_tok ']' s2 with
      | none => none
      | some s3 =>
        let n := dec_nat ds
        if n ≤ 255 then
          if 2 ≤ n ∧ n < 30 then some (n, s3) else none
        else none

/-- quote.rs `qhead` (lines 16-22): `[quote`, an optional `="name"`
attribution, then `]`.  The `opt!` wraps `preceded!(tag!("=\""),
take_until_and_consume!("\""))`; when the inner parser fails with `Error`
(the `="` literal does not match) `opt!` yields `None`, but when
`take_until_and_consume` finds no closing quote the resulting `Incomplete`
propagates through `opt!` and fails the whole head. -/
def qhead (s : List Char) : Option (Option (List Char) × List Char) :=
  match tag_no_case "[quote".data s with
  | none => none
  | some s1 =>
    match tag_lit "=\"".data s1 with
    | some s2 =>
      match take_until_and_consume "\"".data s2 with
      | none => none
      | some (name, s3) =>
        match char_tok ']' s3 with
        | none => none
        | some s4 => some (some name, s4)
    | none =>
      match char_tok ']' s1 with
      | none => none
      | some s2 => some (none, s2)

/-- list.rs `listhead` (lines 34-53): `[list`, an optional `=a` or `=1`,
then `]`. -/
def listhead (s : List Char) : Option (ListStyle × List Char) :=
  match tag_no_case "[list".data s with
  | none => none
  | some s1 =>
    match char_tok '=' s1 with
    | some s2 =>
      match char_tok 'a' s2 with
      | some s3 =>
        match char_tok ']' s3 with
        | none => none
        | some s4 => some (.Alphabetic, s4)
      | none =>
        match char_tok '1' s2 with
        | some s3 =>
          match char_tok ']' s3 with
          | none => none
          | some s4 => some (.Numeric, s4)
        | none =>
          -- both alternatives fail, opt! resets to before the '='
          match char_tok ']' s1 with
          | none => none
          | some s2' => some (.Unordered, s2')
    | none =>
      match char_tok ']' s1 with
      | none => none
      | some s2 => some (.Unordered, s2)

/-- code.rs `code` (lines 6-15): `[code]` body `[/code]`, body taken
verbatim (no recursion). -/
def code (s : List Char) : Option (Segment × List Char) :=
  match tag_no_case "[code]".data s with
  | none => none
  | some s1 =>
    match take_until_no_case "[/code]".data s1 with
    | none => none
    | some (body, s2) =>
      match tag_no_case "[/code]".data s2 with
      | none => none
      | some s3 => some (.Code body, s3)

/-- lib.rs `image` (lines 292-301): `[img]` src `[/img]`, src taken
verbatim. -/
def image (s : List Char) : Option (Segment × List Char) :=
  match tag_no_case "[img]".data s with
  | none => none
  | some s1 =>
    match take_until_no_case "[/img]".data s1 with
    | none => none
    | some (src, s2) =>
      match tag_no_case "[/img]".data s2 with
      | none => none
      | some s3 => some (.Image src, s3)

/-- url.rs `url`, first alternative (lines 11-19): bare
`[url]body[/url]`, the verbatim body reused as both target and display
text. -/
def url_bare (s : List Char) : Option (Segment × List Char) :=
  match tag_no_case "[url]".data s with
  | none => none
  | some s1 =>
    match take_until_no_case "[/url]".data s1 with
    | none => none
    | some (body, s2) =>
      match tag_no_case "[/url]".data s2 with
      | none => none
      | some s3 => some (.Link body [.Text body], s3)

/-- The scan loop of lib.rs `text_segment` (lines 251-257): positions are
visited in order starting at char index 1; at each position the terminal
is tested first, then the coded-segment probe.  Result: `none` = a probe
ran out of fuel (poison), `some none` = no stopping position before end of
input, `some (some i)` = `i` is the first stopping position. -/
def scan_stop (probe : List Char → PRes Segment) (term : Terminal) :
    Nat → List Char → Option (Option Nat)
  | _, [] => some none
  | i, c :: rest =>
    if term.leads (c :: rest) then some (some i)
    else
      match probe (c :: rest) with
      | .done _ _ => some (some i)
      | .out => none
      | .fail => scan_stop probe term (i + 1) rest

/-- lib.rs `text_segment` (lines 226-262), with the `coded_segment` probe
passed as a parameter.  Fails if the terminal matches at the start;
otherwise scans from char offset 1 for the first offset where the
terminal matches or a coded segment starts, returning the text before it;
if no offset stops the scan, the whole input is the text. -/
def text_segment (probe : List Char → PRes Segment) (s : List Char)
    (term : Terminal) : PRes (List Char) :=
  if term.leads s then .fail
  else
    match scan_stop probe term 1 (s.drop 1) with
    | none => .out
    | some none => .done s []
    | some (some i) => .done (s.take i) (s.drop i)

mutual

/-- lib.rs `segment` (lines 192-209): try `coded_segment`, otherwise
`text_segment` with the caller's terminal. -/
def segment : Nat → List Char → Terminal → PRes Segment
  | 0, _, _ => .out
  | f + 1, s, term =>
    match coded_segment f s with
    | .done v r => .done v r
    | .out => .out
    | .fail =>
      match text_segment (coded_segment f) s term with
      | .done txt rest => .done (.Text txt) rest
      | .out => .out
      | .fail => .fail
termination_by structural f => f

/-- lib.rs `coded_segment` (lines 211-220): `alt_complete!` over the
recognizers in source order: decorated, code, image, list, quote, url. -/
def coded_segment : Nat → List Char → PRes Segment
  | 0, _ => .out
  | f + 1, s =>
    match decorated f s with
    | .done v r => .done v r
    | .out => .out
    | .fail =>
      match code s with
      | some (v, r) => .done v r
      | none =>
        match image s with
        | some (v, r) => .done v r
        | none =>
          match list f s with
          | .done v r => .done v r
          | .out => .out
          | .fail =>
            match quote f s with
            | .done v r => .done v r
            | .out => .out
            | .fail => url f s
termination_by structural f => f

/-- decoration.rs `decorated` (lines 25-33): `alt!` over bold, italic,
underline, center, color, size.  A branch returning `Incomplete` stops
`alt!` without trying later branches, but that happens only when the
input is a proper caseless prefix of the branch's opening literal, and
then no later branch can match either, so first-success alternation is
extensionally faithful. -/
def decorated : Nat → List Char → PRes Segment
  | 0, _ => .out
  | f + 1, s =>
    match simple_tag f "[b]".data "[/b]".data s with
    | .done body r => .done (.Decorated .Bold body) r
    | .out => .out
    | .fail =>
      match simple_tag f "[i]".data "[/i]".data s with
      | .done body r => .done (.Decorated .Italic body) r
      | .out => .out
      | .fail =>
        match simple_tag f "[u]".data "[/u]".data s with
        | .done body r => .done (.Decorated .Underline body) r
        | .out => .out
        | .fail =>
          match simple_tag f "[center]".data "[/center]".data s with
          | .done body r => .done (.Decorated .Center body) r
          | .out => .out
          | .fail =>
            match color f s with
            | .done v r => .done v r
            | .out => .out
            | .fail => size f s
termination_by structural f => f

/-- decoration.rs `bold`/`italic`/`underline`/`center` (lines 36-76), the
common shape: opening literal, `many0!(call!(segment, closer))`, closing
literal. -/
def simple_tag : Nat → List Char → List Char → List Char → PRes (List Segment)
  | 0, _, _, _ => .out
  | f + 1, openT, closeT, s =>
    match tag_no_case openT s with
    | none => .fail
    | some s1 =>
      match many0_segment f (.lit closeT) s1 with
      | .out => .out
      | .fail => .fail
      | .done body r =>
        match tag_no_case closeT r with
        | none => .fail
        | some r2 => .done body r2
termination_by structural f => f

/-- decoration.rs `color` (lines 78-90): `color_head`, then a recursive
body terminated by `[/color]`. -/
def color : Nat → List Char → PRes Segment
  | 0, _ => .out
  | f + 1, s =>
    match color_head s with
    | none => .fail
    | some ((r, g, b), s1) =>
      match many0_segment f (.lit "[/color]".data) s1 with
      | .out => .out
      | .fail => .fail
      | .done body r1 =>
        match tag_no_case "[/color]".data r1 with
        | none => .fail
        | some r2 => .done (.Decorated (.Color r g b) body) r2
termination_by structural f => f

/-- decoration.rs `size` (lines 167-179): `size_head`, then a recursive
body terminated by `[/size]`. -/
def size : Nat → List Char → PRes Segment
  | 0, _ => .out
  | f + 1, s =>
    match size_head s with
    | none => .fail
    | some (n, s1) =>
      match many0_segment f (.lit "[/size]".data) s1 with
      | .out => .out
      | .fail => .fail
      | .done body r1 =>
        match tag_no_case "[/size]".data r1 with
        | none => .fail
        | some r2 => .done (.Decorated (.Size n) body) r2
termination_by structural f => f

/-- list.rs `list` (lines 24-32): `listhead`, the items, then
`[/list]`. -/
def list : Nat → List Char → PRes Segment
  | 0, _ => .out
  | f + 1, s =>
    match listhead s with
    | none => .fail
    | some (style, s1) =>
      match list_items f s1 with
      | .out => .out
      | .fail => .fail
      | .done items r =>
        match tag_no_case "[/list]".data r with
        | none => .fail
        | some r2 => .done (.List style items) r2
termination_by structural f => f

/-- list.rs `list`, the items part:
`many0!(preceded!(tag_no_case!("[*]"), many0!(call!(segment, &["[*]",
"[/list]"]))))`.  The outer `many0!` stops when the element parser fails
(rolling its input back); each element consumes at least the `[*]`
marker, so the outer zero-consumption guard never fires but is kept
faithful. -/
def list_items : Nat → List Char → PRes (List (List Segment))
  | 0, _ => .out
  | f + 1, s =>
    match tag_no_case "[*]".data s with
    | none => .done [] s
    | some s1 =>
      match many0_segment f (.two "[*]".data "[/list]".data) s1 with
      | .out => .out
      | .fail => .done [] s
      | .done item r =>
        if r == s then .fail
        else
          match list_items f r with
          | .out => .out
          | .fail => .fail
          | .done items r2 => .done (item :: items) r2
termination_by structural f => f

/-- quote.rs `quote` (lines 6-14): `qhead`, a recursive body, then
`[/quote]`. -/
def quote : Nat → List Char → PRes Segment
  | 0, _ => .out
  | f + 1, s =>
    match qhead s with
    | none => .fail
    | some (att, s1) =>
      match many0_segment f (.lit "[/quote]".data) s1 with
      | .out => .out
      | .fail => .fail
      | .done body r =>
        match tag_no_case "[/quote]".data r with
        | none => .fail
        | some r2 => .done (.Quote att body) r2
termination_by structural f => f

/-- url.rs `url` (lines 9-35): `alt_complete!` over the bare form, the
quote-delimited target form, and the unquoted target form, in that
order. -/
def url : Nat → List Char → PRes Segment
  | 0, _ => .out
  | f + 1, s =>
    match url_bare s with
    | some (v, r) => .done v r
    | none =>
      match url_quoted f s with
      | .done v r => .done v r
      | .out => .out
      | .fail => url_plain f s
termination_by structural f => f

/-- url.rs `url`, second alternative (lines 20-26):
`[url="target"]display[/url]`. -/
def url_quoted : Nat → List Char → PRes Segment
  | 0, _ => .out
  | f + 1, s =>
    match tag_no_case "[url=\"".data s with
    | none => .fail
    | some s1 =>
      match take_until_and_consume "\"]".data s1 with
      | none => .fail
      | some (target, s2) =>
        match many0_segment f (.lit "[/url]".data) s2 with
        | .out => .out
        | .fail => .fail
        | .done txt r =>
          match tag_no_case "[/url]".data r with
          | none => .fail
          | some r2 => .done (.Link target txt) r2
termination_by structural f => f

/-- url.rs `url`, third alternative (lines 27-33):
`[url=target]display[/url]` with unquoted target. -/
def url_plain : Nat → List Char → PRes Segment
  | 0, _ => .out
  | f + 1, s =>
    match tag_no_case "[url=".data s with
    | none => .fail
    | some s1 =>
      match take_until_and_consume "]".data s1 with
      | none => .fail
      | some (target, s2) =>
        match many0_segment f (.lit "[/url]".data) s2 with
        | .out => .out
        | .fail => .fail
        | .done txt r =>
          match tag_no_case "[/url]".data r with
          | none => .fail
          | some r2 => .done (.Link target txt) r2
termination_by structural f => f

/-- nom `many0!(call!(segment, term))`: collect segments until the inner
parser fails; nom's infinite-loop guard makes the whole `many0!` fail if
an iteration succeeds without consuming input (which the embedded
`segment` does exactly on empty input with a non-matching terminal). -/
def many0_segment : Nat → Terminal → List Char → PRes (List Segment)
  | 0, _, _ => .out
  | f + 1, term, s =>
    match segment f s term with
    | .fail => .done [] s
    | .out => .out
    | .done seg rest =>
      if rest == s then .fail
      else
        match many0_segment f term rest with
        | .out => .out
        | .fail => .fail
        | .done segs r => .done (seg :: segs) r
termination_by structural f => f

end

/-- lib.rs `_parse` (lines 136-152): loop `segment` with the
never-matching `()` terminal until the input is empty.  `none` models
both the `panic!` branch (`segment` failed) and fuel exhaustion; whenever
the result is `some`, it is the segment sequence the source returns. -/
def _parse : Nat → List Char → Option (List Segment)
  | 0, _ => none
  | f + 1, s =>
    if s.isEmpty then some []
    else
      match segment f s .unit with
      | .done seg rest =>
        match _parse f rest with
        | some segs => some (seg :: segs)
        | none => none
      | _ => none
termination_by structural f => f

/-- Fuel budget for `parse`: every recursive call of the embedding
decreases the fuel by one and the call depth is linear in the input
length, so a linear budget with generous constants suffices for every
input the theorems below evaluate. -/
def parse_fuel (s : List Char) : Nat := 8 * s.length + 64

/-- lib.rs `parse` (lines 131-134). -/
def parse (s : String) : Option (List Segment) :=
  _parse (parse_fuel s.data) s.data

/-- UTF-8 byte count of a char sequence (str::len). -/
def utf8_len (s : List Char) : Nat := (s.map Char.utf8Size).sum

/-- str::is_char_boundary: is byte offset `n` the start of a char (or the
end of the string)?  Offsets beyond the modelled span are not needed by
`leads_bytes` (it checks the length first). -/
def is_char_boundary : List Char → Nat → Bool
  | _, 0 => true
  | [], _ + 1 => false
  | c :: rest, n + 1 =>
    if c.utf8Size ≤ n + 1 then is_char_boundary rest (n + 1 - c.utf8Size)
    else false

/-- Byte-level model of `<impl Terminal for &str>::leads` (lib.rs
174-183).  The source short-circuits when `s.len() < self.len()` (byte
lengths) and otherwise evaluates `self.eq_ignore_ascii_case(&s[..self.len()])`;
the slice `&s[..self.len()]` panics when the byte offset `self.len()` is
not a char boundary of `s`, modelled as `none`.  When the offset is a
boundary and `t` is ASCII (every terminal of the crate is), the byte
comparison agrees with the char-level `str_leads`. -/
def leads_bytes (t s : List Char) : Option Bool :=
  if utf8_len s < utf8_len t then some false
  else if is_char_boundary s (utf8_len t) then some (str_leads t s)
  else none

/-- Byte-level model of `Terminal::leads` for all three implementations
(lib.rs 167-190), with the `&str` slice panic as `none`.  The
`&[&str; 2]` implementation (`self.iter().any(...)`) short-circuits: the
second literal's test runs only if the first returns false. -/
def terminal_leads_bytes : Terminal → List Char → Option Bool
  | .unit, _ => some false
  | .lit t, s => leads_bytes t s
  | .two a b, s =>
    match leads_bytes a s with
    | none => none
    | some true => some true
    | some false => leads_bytes b s

/-- Every terminal literal the crate ever passes to `Terminal::leads`:
the closers of the simple decoration tags (decoration.rs 36-76), color
and size (decoration.rs 82, 171), quote (quote.rs 9), url (url.rs 23,
30), and the list bullet/closer pair (list.rs 27-29).  The verbatim-body
recognizers (code, img, bare url) use `take_until`, which never calls
`Terminal::leads`.  A `text_segment` scan can trigger the slice panic of
`leads_bytes` only through its own terminal or, inside a recognizer
probe, through one of these literals. -/
def scan_terminals : List (List Char) :=
  ["[/b]".data, "[/i]".data, "[/u]".data, "[/center]".data,
   "[/color]".data, "[/size]".data, "[/quote]".data, "[/url]".data,
   "[/list]".data, "[*]".data]

/-- The tag constructs of the grammar, used to state which closing
literals a parse tree presupposes. -/
inductive TagKind where
  | Bold | Italic | Underline | Center | Color | Size
  | Code | List | Quote | Url | Image
deriving DecidableEq

/-- The closing literal of each construct. -/
def closer_of : TagKind → List Char
  | .Bold => "[/b]".data
  | .Italic => "[/i]".data
  | .Underline => "[/u]".data
  | .Center => "[/center]".data
  | .Color => "[/color]".data
  | .Size => "[/size]".data
  | .Code => "[/code]".data
  | .List => "[/list]".data
  | .Quote => "[/quote]".data
  | .Url => "[/url]".data
  | .Image => "[/img]".data

/-- The construct a decoration style belongs to. -/
def style_kind : DecorationStyle → TagKind
  | .Bold => .Bold
  | .Italic => .Italic
  | .Underline => .Underline
  | .Center => .Center
  | .Color _ _ _ => .Color
  | .Size _ => .Size

/-- A node of kind `k` occurs somewhere in the segment tree. -/
inductive SegHas : TagKind → Segment → Prop where
  | deco_self (st : DecorationStyle) (body : List Segment) :
      SegHas (style_kind st) (.Decorated st body)
  | deco_child {k : TagKind} {c : Segment} (st : DecorationStyle)
      (body : List Segment) : c ∈ body → SegHas k c →
      SegHas k (.Decorated st body)
  | quote_self (a : Option (List Char)) (body : List Segment) :
      SegHas .Quote (.Quote a body)
  | quote_child {k : TagKind} {c : Segment} (a : Option (List Char))
      (body : List Segment) : c ∈ body → SegHas k c →
      SegHas k (.Quote a body)
  | code_self (s : List Char) : SegHas .Code (.Code s)
  | list_self (st : ListStyle) (items : List (List Segment)) :
      SegHas .List (.List st items)
  | list_child {k : TagKind} {c : Segment} {item : List Segment}
      (st : ListStyle) (items : List (List Segment)) :
      item ∈ items → c ∈ item → SegHas k c → SegHas k (.List st items)
  | link_self (t : List Char) (text : List Segment) :
      SegHas .Url (.Link t text)
  | link_child {k : TagKind} {c : Segment} (t : List Char)
      (text : List Segment) : c ∈ text → SegHas k c →
      SegHas k (.Link t text)
  | image_self (s : List Char) : SegHas .Image (.Image s)

/-- `pat` occurs (ASCII caselessly) somewhere in `s`. -/
def occurs_no_case (pat s : List Char) : Bool :=
  (List.range (s.length + 1)).any (fun i => str_leads pat (s.drop i))

/-- One hook invocation of the render.rs `Renderer` trait: the thirteen
hook methods with their data. -/
inductive RenderEvent where
  | text (s : List Char)
  | decoration_begin (st : DecorationStyle)
  | decoration_end (st : DecorationStyle)
  | quote_begin (a : Option (List Char))
  | quote_end (a : Option (List Char))
  | code (s : List Char)
  | list_begin (st : ListStyle)
  | list_item_begin (st : ListStyle)
  | list_item_end (st : ListStyle)
  | list_end (st : ListStyle)
  | link_begin (t : List Char)
  | link_end (t : List Char)
  | image (s : List Char)

mutual

/-- render.rs `Renderer::render` (lines 8-51): walk the segment list in
order, invoking the per-kind hooks; `?` on every hook call propagates the
first sink error immediately.  The sink is modelled as a state `σ`
threaded through a single hook function taking the `RenderEvent`. -/
def render {σ ε : Type} (h : RenderEvent → σ → Except ε σ) :
    List Segment → σ → Except ε σ
  | [], st => .ok st
  | seg :: rest, st =>
    match render_one h seg st with
    | .error e => .error e
    | .ok st1 => render h rest st1

/-- One iteration of the `for segment in segments` loop of
`Renderer::render`: the `match segment` body. -/
def render_one {σ ε : Type} (h : RenderEvent → σ → Except ε σ) :
    Segment → σ → Except ε σ
  | .Text s, st => h (.text s) st
  | .Decorated style txt, st =>
    match h (.decoration_begin style) st with
    | .error e => .error e
    | .ok st1 =>
      match render h txt st1 with
      | .error e => .error e
      | .ok st2 => h (.decoration_end style) st2
  | .Quote a body, st =>
    match h (.quote_begin a) st with
    | .error e => .error e
    | .ok st1 =>
      match render h body st1 with
      | .error e => .error e
      | .ok st2 => h (.quote_end a) st2
  | .Code s, st => h (.code s) st
  | .List style items, st =>
    match h (.list_begin style) st with
    | .error e => .error e
    | .ok st1 =>
      match render_items h style items st1 with
      | .error e => .error e
      | .ok st2 => h (.list_end style) st2
  | .Link t txt, st =>
    match h (.link_begin t) st with
    | .error e => .error e
    | .ok st1 =>
      match render h txt st1 with
      | .error e => .error e
      | .ok st2 => h (.link_end t) st2
  | .Image s, st => h (.image s) st

/-- The `for item in items` loop inside the `Segment::List` arm of
`Renderer::render`. -/
def render_items {σ ε : Type} (h : RenderEvent → σ → Except ε σ)
    (style : ListStyle) : List (List Segment) → σ → Except ε σ
  | [], st => .ok st
  | item :: rest, st =>
    match h (.list_item_begin style) st with
    | .error e => .error e
    | .ok st1 =>
      match render h item st1 with
      | .error e => .error e
      | .ok st2 =>
        match h (.list_item_end style) st2 with
        | .error e => .error e
        | .ok st3 => render_items h style rest st3

end

mutual

/-- Specification side: the depth-first pre-order hook sequence of a
segment list. -/
def events : List Segment → List RenderEvent
  | [] => []
  | seg :: rest => events_of seg ++ events rest

/-- The hook sequence of one segment: begin, children, end for compound
kinds; the single hook for leaves. -/
def events_of : Segment → List RenderEvent
  | .Text s => [.text s]
  | .Decorated style txt =>
    .decoration_begin style :: (events txt ++ [.decoration_end style])
  | .Quote a body => .quote_begin a :: (events body ++ [.quote_end a])
  | .Code s => [.code s]
  | .List style items =>
    .list_begin style :: (events_items style items ++ [.list_end style])
  | .Link t txt => .link_begin t :: (events txt ++ [.link_end t])
  | .Image s => [.image s]

/-- The hook sequence of a list's items. -/
def events_items (style : ListStyle) : List (List Segment) → List RenderEvent
  | [] => []
  | item :: rest =>
    .list_item_begin style :: (events item ++ [.list_item_end style])
      ++ events_items style rest

end

/-- Run a hook sequence left to right, stopping at the first error. -/
def run_events {σ ε : Type} (h : RenderEvent → σ → Except ε σ) :
    List RenderEvent → σ → Except ε σ
  | [], st => .ok st
  | e :: es, st =>
    match h e st with
    | .error x => .error x
    | .ok st' => run_events h es st'

/-- render.rs `SimpleHtml::write_escaped` (lines 97-130): copy `s` to the
output, substituting each char listed in the table by its replacement.
The source implements this by repeatedly locating the next escapable char
with `s.find(escapes)`, writing the unescaped run before it, the
replacement, and continuing past it; the emitted byte sequence is the
per-char substitution modelled here. -/
def write_escaped (table : List (Char × List Char)) : List Char → List Char
  | [] => []
  | c :: rest =>
    match table.find? (fun p => p.1 == c) with
    | some p => p.2 ++ write_escaped table rest
    | none => c :: write_escaped table rest

namespace SimpleHtml

/-- render.rs `SimpleHtml::text` (lines 138-146): escape `&`, `<`, `>`
and replace each newline with an explicit `<br>` line break. -/
def text (s : List Char) : List Char :=
  write_escaped
    [('&', "&amp;".data), ('<', "&lt;".data), ('>', "&gt;".data),
     ('\n', "<br>".data)] s

/-- One lowercase hex digit (the `{:02x}` format). -/
def hex_digit_char (n : Nat) : Char :=
  if n < 10 then Char.ofNat ('0'.toNat + n) else Char.ofNat ('a'.toNat + n - 10)

/-- Two-digit lowercase hex rendering of a byte (`{:02x}`). -/
def hex2 (n : Nat) : List Char :=
  [hex_digit_char (n / 16 % 16), hex_digit_char (n % 16)]

/-- render.rs `SimpleHtml::decoration_begin` (lines 148-168).  Note the
`Size` arm of the source writes `<span style="font-size: {}>` — the
format string has no closing quote for the attribute — which is modelled
verbatim. -/
def decoration_begin : DecorationStyle → List Char
  | .Bold => "<b>".data
  | .Italic => "<i>".data
  | .Underline => "<u>".data
  | .Center => "<div style=\"text-align:center\">".data
  | .Color r g b =>
    "<span style=\"color: #".data ++ hex2 r ++ hex2 g ++ hex2 b ++ "\">".data
  | .Size n => "<span style=\"font-size: ".data ++ Nat.toDigits 10 n ++ ">".data

/-- render.rs `SimpleHtml::decoration_end` (lines 170-181): the source
computes the element name (`b`/`i`/`u`/`div`/`span`) and then writes
`write!(self.out, "<{}>", tag)` — emitting `<tag>`, with no `/`. -/
def decoration_end : DecorationStyle → List Char
  | .Bold => "<b>".data
  | .Italic => "<i>".data
  | .Underline => "<u>".data
  | .Center => "<div>".data
  | .Color _ _ _ => "<span>".data
  | .Size _ => "<span>".data

/-- render.rs `SimpleHtml::quote_begin` (lines 183-189). -/
def quote_begin : Option (List Char) → List Char
  | some orig => "<div>".data ++ orig ++ " wrote:</div><div>".data
  | none => "<div>Quote:</div><div>".data

/-- render.rs `SimpleHtml::quote_end` (lines 191-193). -/
def quote_end (_ : Option (List Char)) : List Char := "</div>".data

/-- render.rs `SimpleHtml::code` (lines 195-199): `<pre>`, then
`self.text(s)` — the same escaping hook used for plain text, including
its newline rewrite — then `</pre>`. -/
def code (s : List Char) : List Char :=
  "<pre>".data ++ text s ++ "</pre>".data

/-- render.rs `SimpleHtml::image` (lines 225-229). -/
def image (src : List Char) : List Char :=
  "<img src=\"".data
    ++ write_escaped
        [('<', "&lt;".data), ('>', "&gt;".data), ('"', "&quot;".data)] src
    ++ ">".data

end SimpleHtml

/-- The terminal test combined with the coded-segment probe, as evaluated
at each offset of `text_segment`'s scan: the scan stops where this is
true. -/
def stop_test (f : Nat) (t : Terminal) (u : List Char) : Bool :=
  t.leads u || (coded_segment f u).isDone

/-- `r` is a suffix of `s` (a drop of it). -/
def SuffixOf (r s : List Char) : Prop := ∃ n, r = s.drop n

theorem suffix_refl (s : List Char) : SuffixOf s s := ⟨0, rfl⟩

theorem suffix_drop (n : Nat) (s : List Char) : SuffixOf (s.drop n) s :=
  ⟨n, rfl⟩

theorem suffix_trans {r u s : List Char} (h1 : SuffixOf r u)
    (h2 : SuffixOf u s) : SuffixOf r s := by
  obtain ⟨n, rfl⟩ := h1
  obtain ⟨m, rfl⟩ := h2
  exact ⟨m + n, List.drop_drop n m s⟩

theorem occurs_iff {p s : List Char} :
    occurs_no_case p s = true ↔ ∃ n, str_leads p (s.drop n) = true := by
  constructor
  · intro h
    obtain ⟨i, _, hi⟩ := List.any_eq_true.mp h
    exact ⟨i, hi⟩
  · rintro ⟨n, hn⟩
    refine List.any_eq_true.mpr ?_
    by_cases hns : n ≤ s.length
    · exact ⟨n, List.mem_range.mpr (by omega), hn⟩
    · refine ⟨s.length, List.mem_range.mpr (by omega), ?_⟩
      rw [List.drop_length]
      rwa [List.drop_eq_nil_of_le (by omega)] at hn

theorem occurs_of_leads {p s : List Char} (h : str_leads p s = true) :
    occurs_no_case p s = true :=
  occurs_iff.mpr ⟨0, h⟩

theorem occurs_of_suffix {p u s : List Char} (hs : SuffixOf u s)
    (h : occurs_no_case p u = true) : occurs_no_case p s = true := by
  obtain ⟨n, rfl⟩ := hs
  obtain ⟨m, hm⟩ := occurs_iff.mp h
  exact occurs_iff.mpr ⟨n + m, by rwa [List.drop_drop] at hm⟩

theorem tag_no_case_eq {t s r : List Char} (h : tag_no_case t s = some r) :
    str_leads t s = true ∧ r = s.drop t.length := by
  unfold tag_no_case at h
  split at h
  · exact ⟨by assumption, by injection h with h'; exact h'.symm⟩
  · exact absurd h (by simp)

theorem tag_lit_suffix {t s r : List Char} (h : tag_lit t s = some r) :
    SuffixOf r s := by
  unfold tag_lit at h
  split at h
  · exact ⟨t.length, by injection h with h'; exact h'.symm⟩
  · exact absurd h (by simp)

theorem char_tok_suffix {c : Char} {s r : List Char}
    (h : char_tok c s = some r) : SuffixOf r s := by
  unfold char_tok at h
  match s with
  | [] => exact absurd h (by simp)
  | x :: rest =>
    simp only [] at h
    split at h
    · injection h with h'
      exact ⟨1, h'.symm⟩
    · exact absurd h (by simp)

theorem take_until_no_case_eq {t s a r : List Char}
    (h : take_until_no_case t s = some (a, r)) :
    (∃ i, a = s.take i ∧ r = s.drop i ∧ str_leads t r = true) := by
  unfold take_until_no_case at h
  split at h
  next i hfind =>
    injection h with h'
    injection h' with h1 h2
    exact ⟨i, h1.symm, h2.symm, by
      have := List.find?_some hfind
      subst h2
      simpa using this⟩
  · exact absurd h (by simp)

theorem take_until_and_consume_suffix {t s a r : List Char}
    (h : take_until_and_consume t s = some (a, r)) : SuffixOf r s := by
  unfold take_until_and_consume at h
  split at h
  next i hfind =>
    injection h with h'
    injection h' with h1 h2
    exact ⟨i + t.length, h2.symm⟩
  · exact absurd h (by simp)

theorem span1_suffix {p : Char → Bool} {s a r : List Char}
    (h : span1 p s = some (a, r)) : SuffixOf r s := by
  unfold span1 at h
  dsimp only [] at h
  split at h
  · exact absurd h (by simp)
  · split at h
    · exact absurd h (by simp)
    · injection h with h'
      injection h' with h1 h2
      exact ⟨(s.takeWhile p).length, h2.symm⟩

/-- C1: the parse of a finite UTF-8 input is not always panic-free: the
`Terminal::leads` implementation for `&str` slices `s[..t.len()]` before
comparing, and that byte index need not be a char boundary.  During
`parse("[b]abcé")` the bold recognizer matches `[b]` and scans the body
`abcé` for the terminal `[/b]`; the very first terminal test slices
`"abcé"[..4]`, and byte 4 falls inside the two-byte `é`, so the program
panics (`byte index 4 is not a char boundary`).  `leads_bytes` models
that call; `none` is the panic. -/
theorem c1_leads_slice_panics :
    leads_bytes "[/b]".data "abcé".data = none := by decide

/-- C4: the SimpleHtml code hook wraps the body in `<pre>`/`</pre>` and
escapes `&`, `<`, `>`, but — contrary to the claim — it also rewrites
every newline into `<br>`, because `SimpleHtml::code` reuses the
`SimpleHtml::text` hook, whose escape table includes the newline. -/
theorem c4_code_hook_rewrites_newlines :
    SimpleHtml.code "a\nb".data = "<pre>a<br>b</pre>".data ∧
    SimpleHtml.code "&<>".data = "<pre>&amp;&lt;&gt;</pre>".data :=
  ⟨rfl, rfl⟩

/-- C6: `SimpleHtml::decoration_end` writes `write!("<{}>", tag)` — an
opening delimiter with no `/` — so a begin/end pair for Bold emits
`<b>`…`<b>`, not a properly paired open/close. -/
theorem c6_decoration_end_not_closing :
    SimpleHtml.decoration_begin .Bold = "<b>".data ∧
    SimpleHtml.decoration_end .Bold = "<b>".data ∧
    SimpleHtml.decoration_end .Bold ≠ "</b>".data :=
  ⟨rfl, rfl, by decide⟩

/-- C5 counterexample: on the input the claim names, which has no space
after either `[*]` bullet, the parsed items are `Text("One\n")` and
`Text("Two")`, without the leading spaces the claim asserts. -/
theorem c5_counterexample :
    parse "[list][*]One\n[*]Two[/list]"
      ≠ some [.List .Unordered [[.Text " One\n".data], [.Text " Two".data]]] := by
  intro h
  have e : parse "[list][*]One\n[*]Two[/list]"
      = some [.List .Unordered [[.Text "One\n".data], [.Text "Two".data]]] := rfl
  rw [e] at h
  injection h with h1
  injection h1 with h2 _
  injection h2 with _ h3
  injection h3 with h4 _
  injection h4 with h5 _
  injection h5 with h6
  exact absurd h6 (by decide)

/-- C5 (amended): `parse("[list][*]One\n[*]Two[/list]")` yields a single
List segment with Unordered style and exactly two items whose contents
are `[Text("One\n")]` and `[Text("Two")]` (no leading space, since the
input has no character between each bullet and its body), and
`parse("[list=a][/list]")` yields a single List segment with Alphabetic
style and zero items. -/
theorem c5_list_items_text :
    parse "[list][*]One\n[*]Two[/list]"
      = some [.List .Unordered [[.Text "One\n".data], [.Text "Two".data]]] ∧
    parse "[list=a][/list]" = some [.List .Alphabetic []] :=
  ⟨rfl, rfl⟩

/-- C7: the color parameter accepts the 3-hex-digit form with each digit
duplicated into a byte, the 6-hex-digit two-digits-per-channel form, and
a CSS color name resolved through the external table; an unresolvable
name fails the recognizer and the whole construct parses as plain
text. -/
theorem c7_color_forms :
    color_head "[color=#81f]".data = some ((0x88, 0x11, 0xFF), []) ∧
    color_head "[color=#01FE9A]".data = some ((0x01, 0xFE, 0x9A), []) ∧
    color_head "[color=red]".data = some ((255, 0, 0), []) ∧
    color_head "[color=notacolor]".data = none ∧
    color (parse_fuel "[color=notacolor]x[/color]".data)
        "[color=notacolor]x[/color]".data = .fail ∧
    parse "[color=notacolor]x[/color]"
      = some [.Text "[color=notacolor]x[/color]".data] :=
  ⟨rfl, rfl, rfl, rfl, rfl, rfl⟩

theorem take_append_self (t s : List Char) : (t ++ s).take t.length = t := by
  induction t with
  | nil => simp
  | cons a t ih => simp [ih]

theorem drop_append_self (t s : List Char) : (t ++ s).drop t.length = s := by
  induction t with
  | nil => simp
  | cons a t ih => simp [ih]

theorem str_leads_append (t s : List Char) : str_leads t (t ++ s) = true := by
  simp [str_leads, eq_ignore_ascii_case, take_append_self]

theorem tag_no_case_append (t s : List Char) :
    tag_no_case t (t ++ s) = some s := by
  simp [tag_no_case, str_leads_append, drop_append_self]

/-- The scan loop, success case: the returned index is the first position
at or after the start index where the terminal or the probe matches. -/
theorem scan_stop_some (probe : List Char → PRes Segment) (term : Terminal) :
    ∀ (u : List Char) (i j : Nat),
    scan_stop probe term i u = some (some j) →
    i ≤ j ∧ j - i < u.length ∧
    (term.leads (u.drop (j - i)) || (probe (u.drop (j - i))).isDone) = true ∧
    ∀ m, m < j - i →
      (term.leads (u.drop m) || (probe (u.drop m)).isDone) = false := by
  intro u
  induction u with
  | nil => intro i j h; simp [scan_stop] at h
  | cons c rest ih =>
    intro i j h
    rw [scan_stop] at h
    by_cases hl : term.leads (c :: rest) = true
    · rw [if_pos hl] at h
      injection h with h'
      injection h' with h''
      subst h''
      refine ⟨le_rfl, by simp, ?_, ?_⟩
      · simp [hl]
      · intro m hm; omega
    · rw [if_neg hl] at h
      cases hp : probe (c :: rest) with
      | done v r =>
        rw [hp] at h
        injection h with h'
        injection h' with h''
        subst h''
        refine ⟨le_rfl, by simp, ?_, ?_⟩
        · simp [hp, PRes.isDone]
        · intro m hm; omega
      | out => rw [hp] at h; simp at h
      | fail =>
        rw [hp] at h
        obtain ⟨h1, h2, h3, h4⟩ := ih (i + 1) j h
        have hji : 1 ≤ j - i := by omega
        refine ⟨by omega, by simp; omega, ?_, ?_⟩
        · have : (c :: rest).drop (j - i) = rest.drop (j - (i + 1)) := by
            have : j - i = (j - (i + 1)) + 1 := by omega
            rw [this]; rfl
          rw [this]
          have : j - (i + 1) = j - (i + 1) := rfl
          simpa using h3
        · intro m hm
          match m with
          | 0 => simp [hl, hp, PRes.isDone]
          | m' + 1 =>
            have : (c :: rest).drop (m' + 1) = rest.drop m' := rfl
            rw [this]
            exact h4 m' (by omega)

/-- The scan loop, no-stop case: no position strictly inside the scanned
span satisfies the terminal or the probe. -/
theorem scan_stop_none (probe : List Char → PRes Segment) (term : Terminal) :
    ∀ (u : List Char) (i : Nat),
    scan_stop probe term i u = some none →
    ∀ m, m < u.length →
      (term.leads (u.drop m) || (probe (u.drop m)).isDone) = false := by
  intro u
  induction u with
  | nil => intro i h m hm; simp at hm
  | cons c rest ih =>
    intro i h m hm
    rw [scan_stop] at h
    by_cases hl : term.leads (c :: rest) = true
    · rw [if_pos hl] at h; simp at h
    · rw [if_neg hl] at h
      cases hp : probe (c :: rest) with
      | done v r => rw [hp] at h; simp at h
      | out => rw [hp] at h; simp at h
      | fail =>
        rw [hp] at h
        match m with
        | 0 => simp [hl, hp, PRes.isDone]
        | m' + 1 =>
          have he : (c :: rest).drop (m' + 1) = rest.drop m' := rfl
          rw [he]
          exact ih (i + 1) h m' (by simpa using hm)

theorem char_le_toNat {a b : Char} (h : a ≤ b) : a.toNat ≤ b.toNat := by
  simp only [Char.le_def, UInt32.le_def, BitVec.le_def] at h
  exact h

theorem toNat_ofNat_small {n : Nat} (h : n < 0xD800) :
    (Char.ofNat n).toNat = n := by
  rw [Char.ofNat, dif_pos (Or.inl h)]
  rfl

theorem utf8Size_one {c : Char} (h : c.toNat < 128) : c.utf8Size = 1 := by
  unfold Char.utf8Size
  rw [if_pos]
  show c.val ≤ UInt32.ofNatCore 0x7F (by decide)
  simp only [UInt32.le_def, BitVec.le_def]
  exact Nat.le_of_lt_succ (by exact_mod_cast h)

/-- ASCII lowercasing never changes a char's UTF-8 width (the fold only
moves A-Z to a-z, both one byte). -/
theorem utf8Size_ascii_lower (c : Char) :
    (ascii_lower c).utf8Size = c.utf8Size := by
  unfold ascii_lower
  split
  · next hAZ =>
    obtain ⟨h1, h2⟩ := hAZ
    have hA' : 65 ≤ c.toNat := by simpa using char_le_toNat h1
    have hZ' : c.toNat ≤ 90 := by simpa using char_le_toNat h2
    have ht : (Char.ofNat (c.toNat + 32)).toNat = c.toNat + 32 :=
      toNat_ofNat_small (by omega)
    rw [utf8Size_one (show (Char.ofNat (c.toNat + 32)).toNat < 128 by omega),
      utf8Size_one (show c.toNat < 128 by omega)]
  · rfl

theorem utf8_len_map_lower (x : List Char) :
    utf8_len (x.map ascii_lower) = utf8_len x := by
  induction x with
  | nil => rfl
  | cons c x ih =>
    simp only [utf8_len, List.map_cons, List.sum_cons] at ih ⊢
    rw [utf8Size_ascii_lower]
    omega

theorem utf8_len_append (a b : List Char) :
    utf8_len (a ++ b) = utf8_len a + utf8_len b := by
  simp [utf8_len]

theorem utf8_len_take_le (n : Nat) (s : List Char) :
    utf8_len (s.take n) ≤ utf8_len s := by
  have h := utf8_len_append (s.take n) (s.drop n)
  rw [List.take_append_drop] at h
  omega

/-- A caseless char-level match forces the pattern's byte length to fit
in the input's. -/
theorem str_leads_byte_le {t s : List Char} (h : str_leads t s = true) :
    utf8_len t ≤ utf8_len s := by
  unfold str_leads at h
  rw [Bool.and_eq_true] at h
  obtain ⟨h1, h2⟩ := h
  unfold eq_ignore_ascii_case at h2
  have he : t.map ascii_lower = (s.take t.length).map ascii_lower :=
    eq_of_beq h2
  have hlen : utf8_len t = utf8_len (s.take t.length) := by
    rw [← utf8_len_map_lower t, he, utf8_len_map_lower]
  rw [hlen]
  exact utf8_len_take_le _ _

/-- Where the byte-level `<&str as Terminal>::leads` is defined (does
not panic), it computes exactly the char-level `str_leads`. -/
theorem leads_bytes_agrees {t s : List Char} (h : leads_bytes t s ≠ none) :
    leads_bytes t s = some (str_leads t s) := by
  unfold leads_bytes at h ⊢
  by_cases h1 : utf8_len s < utf8_len t
  · rw [if_pos h1]
    have hf : str_leads t s = false := by
      cases hsl : str_leads t s with
      | false => rfl
      | true => exact absurd (str_leads_byte_le hsl) (by omega)
    rw [hf]
  · rw [if_neg h1] at h ⊢
    by_cases h2 : is_char_boundary s (utf8_len t) = true
    · rw [if_pos h2]
    · rw [if_neg h2] at h
      exact absurd rfl h

/-- Where the byte-level `Terminal::leads` is defined, it computes
exactly the model's `Terminal.leads`, for all three implementations. -/
theorem terminal_leads_bytes_agrees {t : Terminal} {s : List Char}
    (h : terminal_leads_bytes t s ≠ none) :
    terminal_leads_bytes t s = some (t.leads s) := by
  cases t with
  | unit => rfl
  | lit tl => exact leads_bytes_agrees h
  | two a b =>
    unfold terminal_leads_bytes at h ⊢
    dsimp only at h ⊢
    cases ha : leads_bytes a s with
    | none => rw [ha] at h; exact absurd rfl h
    | some av =>
      rw [ha] at h
      have ha' : str_leads a s = av := by
        have hh := leads_bytes_agrees (t := a) (s := s) (by rw [ha]; simp)
        rw [ha] at hh
        injection hh with h'
        exact h'.symm
      cases av with
      | true =>
        dsimp only
        have hta : str_leads a s = true := ha'
        simp [Terminal.leads, hta]
      | false =>
        dsimp only at h ⊢
        have hb := leads_bytes_agrees (t := b) (s := s) h
        rw [hb]
        have hta : str_leads a s = false := ha'
        simp [Terminal.leads, hta]

/-- C3 counterexample: on empty input with a non-matching terminal, the
text scanner does return zero-length text (the claim says it never
does). -/
theorem c3_counterexample :
    text_segment (coded_segment 1) [] (.lit "[/b]".data) = .done [] [] ∧
    (Terminal.lit "[/b]".data).leads [] = false :=
  ⟨rfl, rfl⟩

/-- C3 (amended): on every input on which no terminal test of the scan
can panic — the source's `<&str as Terminal>::leads` slices
`s[..t.len()]` and panics when that byte offset is not a char boundary
of the remaining input (the bug of C1), and such a test is made for the
scan's own terminal and, inside recognizer probes, for the crate's
closing/bullet literals, always at a suffix of the input, so the
hypothesis requires the byte-level test to be defined there —
`text_segment(input, terminal)` fails exactly when the terminal
predicate matches at the start of input, and it never returns
zero-length text except on empty input, where it returns the empty input
as empty text; otherwise it returns as text the prefix of input up to
(not including) the first character offset >= 1 at which either the
terminal predicate matches the remaining input or some tag recognizer
succeeds, leaving that remainder unconsumed; and when no such offset
exists it returns the entire remaining input with an empty remainder.
The first conjunct grounds the characterization in the program: under
the hypothesis, the byte-level terminal tests agree with the char-level
predicates the characterization is phrased with, at every position of
the scan. -/
theorem c3_text_segment_spec :
    ∀ (f : Nat) (s : List Char) (t : Terminal),
    (∀ n, n ≤ s.length → terminal_leads_bytes t (s.drop n) ≠ none ∧
      ∀ tl ∈ scan_terminals, leads_bytes tl (s.drop n) ≠ none) →
    (∀ n, n ≤ s.length →
      terminal_leads_bytes t (s.drop n) = some (t.leads (s.drop n)) ∧
      ∀ tl ∈ scan_terminals,
        leads_bytes tl (s.drop n) = some (str_leads tl (s.drop n))) ∧
    (t.leads s = true → text_segment (coded_segment f) s t = .fail) ∧
    (t.leads s = false → text_segment (coded_segment f) s t ≠ .fail) ∧
    (∀ txt rest, text_segment (coded_segment f) s t = .done txt rest →
      t.leads s = false ∧
      txt ++ rest = s ∧
      (s ≠ [] → txt ≠ []) ∧
      (∀ j, 1 ≤ j → j < txt.length → stop_test f t (s.drop j) = false) ∧
      (rest ≠ [] → rest = s.drop txt.length ∧ stop_test f t rest = true) ∧
      (rest = [] → txt = s)) := by
  intro f s t hsafe
  refine ⟨fun n hn => ⟨terminal_leads_bytes_agrees (hsafe n hn).1,
    fun tl htl => leads_bytes_agrees ((hsafe n hn).2 tl htl)⟩, ?_⟩
  by_cases hl : t.leads s = true
  · refine ⟨fun _ => by simp [text_segment, hl], fun hc => by simp [hc] at hl, ?_⟩
    intro txt rest h
    simp [text_segment, hl] at h
  · have hl' : t.leads s = false := by simpa using hl
    refine ⟨fun hc => by simp [hc] at hl', ?_, ?_⟩
    · intro _
      rw [text_segment, if_neg hl]
      cases hscan : scan_stop (coded_segment f) t 1 (s.drop 1) with
      | none => simp
      | some o => cases o <;> simp
    · intro txt rest h
      rw [text_segment, if_neg hl] at h
      cases hscan : scan_stop (coded_segment f) t 1 (s.drop 1) with
      | none => rw [hscan] at h; simp at h
      | some o =>
        cases o with
        | none =>
          rw [hscan] at h
          injection h with h1 h2
          subst h1; subst h2
          have hnone := scan_stop_none (coded_segment f) t (s.drop 1) 1 hscan
          refine ⟨hl', by simp, fun hs => hs, ?_, by simp, fun _ => rfl⟩
          intro j hj1 hj2
          have hd : (s.drop 1).drop (j - 1) = s.drop j := by
            rw [List.drop_drop]; congr 1; omega
          have := hnone (j - 1) (by simp; omega)
          rw [hd] at this
          simpa [stop_test] using this
        | some i =>
          rw [hscan] at h
          injection h with h1 h2
          subst h1; subst h2
          obtain ⟨hi1, hi2, hi3, hi4⟩ :=
            scan_stop_some (coded_segment f) t (s.drop 1) 1 i hscan
          have hlen : i < s.length := by
            have := s.length_drop 1
            omega
          have hdi : (s.drop 1).drop (i - 1) = s.drop i := by
            rw [List.drop_drop]; congr 1; omega
          have htake : (s.take i).length = i := by
            simp [List.length_take]; omega
          have hstop : stop_test f t (s.drop i) = true := by
            rw [hdi] at hi3; simpa [stop_test] using hi3
          refine ⟨hl', List.take_append_drop i s, ?_, ?_, ?_, ?_⟩
          · intro hs
            simp [List.take_eq_nil_iff]
            constructor
            · omega
            · exact hs
          · intro j hj1 hj2
            rw [htake] at hj2
            have hd : (s.drop 1).drop (j - 1) = s.drop j := by
              rw [List.drop_drop]; congr 1; omega
            have := hi4 (j - 1) (by omega)
            rw [hd] at this
            simpa [stop_test] using this
          · intro _
            rw [htake]
            exact ⟨rfl, hstop⟩
          · intro hrest
            exfalso
            have hlen2 := congrArg List.length hrest
            simp at hlen2
            omega

/-- Witness for C3: the characterization applied at concrete (ASCII, so
panic-free) inputs — the scanner fails when the terminal leads the
input, and splits text from remainder on the crate's own test input. -/
theorem c3_witness :
    text_segment (coded_segment 1) "[/b]x".data (.lit "[/b]".data) = .fail ∧
    "Foo".data ++ "\r\nBar".data = "Foo\r\nBar".data :=
  ⟨(c3_text_segment_spec 1 "[/b]x".data (.lit "[/b]".data)
      (by decide)).2.1 (by decide),
   ((c3_text_segment_spec 50 "Foo\r\nBar".data (.lit "\r\n".data)
      (by decide)).2.2.2 "Foo".data "\r\nBar".data (by rfl)).2.1⟩

/-- The text scanner never produces zero-length text on nonempty
input. -/
theorem text_nonzero :
    ∀ (f : Nat) (s : List Char) (t : Terminal) (txt rest : List Char),
    s ≠ [] → text_segment (coded_segment f) s t = .done txt rest →
    txt ≠ [] := by
  intro f s t txt rest hs h
  rw [text_segment] at h
  by_cases hl : t.leads s = true
  · rw [if_pos hl] at h; exact absurd h (by simp)
  · rw [if_neg hl] at h
    cases hscan : scan_stop (coded_segment f) t 1 (s.drop 1) with
    | none => rw [hscan] at h; simp at h
    | some o =>
      cases o with
      | none =>
        rw [hscan] at h
        injection h with h1 h2
        subst h1
        exact hs
      | some i =>
        rw [hscan] at h
        injection h with h1 h2
        subst h1
        obtain ⟨hi1, _, _, _⟩ :=
          scan_stop_some (coded_segment f) t (s.drop 1) 1 i hscan
        intro hnil
        rw [List.take_eq_nil_iff] at hnil
        rcases hnil with h0 | h0
        · omega
        · exact hs h0

/-- C10 counterexample: the text scanner does return zero-length text —
on empty input — so the claim's "even though the text scanner never
returns zero-length text" is not true unconditionally. -/
theorem c10_counterexample :
    text_segment (coded_segment 1) [] Terminal.unit = .done [] [] := rfl

/-- C10 (amended): the parsed tree can contain a zero-length Text leaf
even though the text scanner never returns zero-length text on nonempty
input (and its zero-length result on empty input never reaches a tree,
since nom's many0 guard rejects non-consuming iterations):
`parse("[url][/url]")` yields a Link segment whose target is the empty
string and whose display text is the single segment `Text("")`, because
the bare url form copies its verbatim (possibly empty) body into both the
target and the display text. -/
theorem c10_empty_link_text :
    (∀ (f : Nat) (s : List Char) (t : Terminal) (txt rest : List Char),
      s ≠ [] → text_segment (coded_segment f) s t = .done txt rest →
      txt ≠ []) ∧
    parse "[url][/url]" = some [.Link [] [.Text []]] :=
  ⟨text_nonzero, rfl⟩

/-- Witness for C10: the nonzero-text part applied at a concrete
input. -/
theorem c10_witness :
    ("ab".data : List Char) ≠ [] ∧
    parse "[url][/url]" = some [.Link [] [.Text []]] :=
  ⟨c10_empty_link_text.1 50 "ab".data .unit "ab".data [] (by decide) (by rfl),
   c10_empty_link_text.2⟩

theorem qhead_unquoted (c : Char) (s : List Char) (hc : c ≠ '"') :
    qhead ("[quote=".data ++ c :: s) = none := by
  have h0 : "[quote=".data ++ c :: s = "[quote".data ++ ('=' :: c :: s) := rfl
  rw [h0]
  have h1 : tag_no_case "[quote".data ("[quote".data ++ '=' :: c :: s)
      = some ('=' :: c :: s) := tag_no_case_append _ _
  have hc' : (c == '"') = false := beq_eq_false_iff_ne.mpr hc
  have h2 : tag_lit "=\"".data ('=' :: c :: s) = none := by
    rw [tag_lit]
    have hbeq : (('=' :: c :: s).take ("=\"".data).length == "=\"".data)
        = ((('=' : Char) == '=') && ((c == '"') && (([] : List Char) == []))) := rfl
    rw [hbeq, hc']
    simp
  have h3 : char_tok ']' ('=' :: c :: s) = none := by
    rw [char_tok]
    simp
  unfold qhead
  rw [h1]
  simp only [h2, h3]

/-- C9: a quote attribution is recognized only in the double-quoted form
`[quote="name"]`: whenever the char after `[quote=` is not a double
quote, `qhead` (and with it the whole quote recognizer) fails without
consuming input, and the construct degrades to plain text; the
double-quoted form succeeds. -/
theorem c9_quote_attribution_quoted_only :
    (∀ (c : Char) (s : List Char), c ≠ '"' →
      qhead ("[quote=".data ++ c :: s) = none) ∧
    (∀ (f : Nat) (c : Char) (s : List Char), c ≠ '"' →
      quote (f + 1) ("[quote=".data ++ c :: s) = .fail) ∧
    parse "[quote=Batman]hi[/quote]"
      = some [.Text "[quote=Batman]hi[/quote]".data] ∧
    quote 60 "[quote=\"Batman\"]x[/quote]".data
      = .done (.Quote (some "Batman".data) [.Text "x".data]) [] := by
  refine ⟨qhead_unquoted, ?_, rfl, rfl⟩
  intro f c s hc
  simp only [quote]
  rw [qhead_unquoted c s hc]

/-- Witness for C9: both universally quantified parts applied at the
concrete input `[quote=B]x`. -/
theorem c9_witness :
    qhead ("[quote=".data ++ 'B' :: "]x".data) = none ∧
    quote 3 ("[quote=".data ++ 'B' :: "]x".data) = .fail :=
  ⟨c9_quote_attribution_quoted_only.1 'B' "]x".data (by decide),
   c9_quote_attribution_quoted_only.2.1 2 'B' "]x".data (by decide)⟩

theorem run_events_append {σ ε : Type} (h : RenderEvent → σ → Except ε σ) :
    ∀ (xs ys : List RenderEvent) (st : σ),
    run_events h (xs ++ ys) st =
      (match run_events h xs st with
       | .error e => .error e
       | .ok st' => run_events h ys st') := by
  intro xs
  induction xs with
  | nil => intro ys st; simp [run_events]
  | cons e es ih =>
    intro ys st
    simp only [List.cons_append, run_events]
    cases h e st with
    | error x => rfl
    | ok st' => exact ih ys st'

theorem render_events_aux {σ ε : Type} (h : RenderEvent → σ → Except ε σ) :
    ∀ n : Nat,
    (∀ seg : Segment, sizeOf seg ≤ n → ∀ st : σ,
      render_one h seg st = run_events h (events_of seg) st) ∧
    (∀ segs : List Segment, sizeOf segs ≤ n → ∀ st : σ,
      render h segs st = run_events h (events segs) st) ∧
    (∀ (style : ListStyle) (items : List (List Segment)),
      sizeOf items ≤ n → ∀ st : σ,
      render_items h style items st = run_events h (events_items style items) st) := by
  intro n
  induction n using Nat.strong_induction_on with
  | _ n ih =>
    refine ⟨?_, ?_, ?_⟩
    · intro seg hsz st
      cases seg with
      | Text s =>
        simp only [render_one, events_of, run_events]
        cases h (.text s) st <;> rfl
      | Decorated style txt =>
        have hlt : sizeOf txt < n := by
          have := Segment.Decorated.sizeOf_spec style txt
          omega
        simp only [render_one, events_of, run_events]
        cases hb : h (.decoration_begin style) st with
        | error e => rfl
        | ok st1 =>
          dsimp only
          rw [(ih (sizeOf txt) hlt).2.1 txt le_rfl st1, run_events_append]
          cases run_events h (events txt) st1 with
          | error e => rfl
          | ok st2 =>
            dsimp only
            simp only [run_events]
            cases h (.decoration_end style) st2 <;> rfl
      | Quote a body =>
        have hlt : sizeOf body < n := by
          have := Segment.Quote.sizeOf_spec a body
          omega
        simp only [render_one, events_of, run_events]
        cases hb : h (.quote_begin a) st with
        | error e => rfl
        | ok st1 =>
          dsimp only
          rw [(ih (sizeOf body) hlt).2.1 body le_rfl st1, run_events_append]
          cases run_events h (events body) st1 with
          | error e => rfl
          | ok st2 =>
            dsimp only
            simp only [run_events]
            cases h (.quote_end a) st2 <;> rfl
      | Code s =>
        simp only [render_one, events_of, run_events]
        cases h (.code s) st <;> rfl
      | List style items =>
        have hlt : sizeOf items < n := by
          have := Segment.List.sizeOf_spec style items
          omega
        simp only [render_one, events_of, run_events]
        cases hb : h (.list_begin style) st with
        | error e => rfl
        | ok st1 =>
          dsimp only
          rw [(ih (sizeOf items) hlt).2.2 style items le_rfl st1,
            run_events_append]
          cases run_events h (events_items style items) st1 with
          | error e => rfl
          | ok st2 =>
            dsimp only
            simp only [run_events]
            cases h (.list_end style) st2 <;> rfl
      | Link t txt =>
        have hlt : sizeOf txt < n := by
          have := Segment.Link.sizeOf_spec t txt
          omega
        simp only [render_one, events_of, run_events]
        cases hb : h (.link_begin t) st with
        | error e => rfl
        | ok st1 =>
          dsimp only
          rw [(ih (sizeOf txt) hlt).2.1 txt le_rfl st1, run_events_append]
          cases run_events h (events txt) st1 with
          | error e => rfl
          | ok st2 =>
            dsimp only
            simp only [run_events]
            cases h (.link_end t) st2 <;> rfl
      | Image s =>
        simp only [render_one, events_of, run_events]
        cases h (.image s) st <;> rfl
    · intro segs hsz st
      cases segs with
      | nil => simp [render, events, run_events]
      | cons seg rest =>
        have hspec : sizeOf (seg :: rest) = 1 + sizeOf seg + sizeOf rest := by
          simp
        have hlt1 : sizeOf seg < n := by omega
        have hlt2 : sizeOf rest < n := by omega
        simp only [render, events]
        rw [(ih (sizeOf seg) hlt1).1 seg le_rfl st, run_events_append]
        cases run_events h (events_of seg) st with
        | error e => rfl
        | ok st1 =>
          dsimp only
          exact (ih (sizeOf rest) hlt2).2.1 rest le_rfl st1
    · intro style items hsz st
      cases items with
      | nil => simp [render_items, events_items, run_events]
      | cons item rest =>
        have hspec : sizeOf (item :: rest) = 1 + sizeOf item + sizeOf rest := by
          simp
        have hlt1 : sizeOf item < n := by omega
        have hlt2 : sizeOf rest < n := by omega
        simp only [render_items, events_items, List.cons_append, run_events]
        cases hb : h (.list_item_begin style) st with
        | error e => rfl
        | ok st1 =>
          dsimp only
          simp only [List.append_eq, List.append_assoc, List.singleton_append]
          rw [run_events_append, (ih (sizeOf item) hlt1).2.1 item le_rfl st1]
          cases run_events h (events item) st1 with
          | error e => rfl
          | ok st2 =>
            dsimp only
            simp only [run_events]
            cases hc : h (.list_item_end style) st2 with
            | error e => rfl
            | ok st3 =>
              dsimp only
              exact (ih (sizeOf rest) hlt2).2.2 style rest le_rfl st3

/-- Soundness payload for a produced segment: the remainder is a suffix
of the input, and every construct in the tree presupposes an occurrence
of its closing literal in the input. -/
def SoundSeg (s : List Char) (v : Segment) (r : List Char) : Prop :=
  SuffixOf r s ∧ ∀ k, SegHas k v → occurs_no_case (closer_of k) s = true

/-- Soundness payload for a produced segment list. -/
def SoundList (s : List Char) (body : List Segment) (r : List Char) : Prop :=
  SuffixOf r s ∧ ∀ k seg, seg ∈ body → SegHas k seg →
    occurs_no_case (closer_of k) s = true

/-- Soundness payload for produced list items. -/
def SoundItems (s : List Char) (items : List (List Segment))
    (r : List Char) : Prop :=
  SuffixOf r s ∧ ∀ k seg item, item ∈ items → seg ∈ item → SegHas k seg →
    occurs_no_case (closer_of k) s = true

theorem text_suffix {probe : List Char → PRes Segment} {s : List Char}
    {t : Terminal} {txt rest : List Char}
    (h : text_segment probe s t = .done txt rest) : SuffixOf rest s := by
  rw [text_segment] at h
  by_cases hl : t.leads s = true
  · rw [if_pos hl] at h; exact absurd h (by simp)
  · rw [if_neg hl] at h
    cases hscan : scan_stop probe t 1 (s.drop 1) with
    | none => rw [hscan] at h; simp at h
    | some o =>
      cases o with
      | none =>
        rw [hscan] at h
        injection h with h1 h2
        exact ⟨s.length, by rw [← h2, List.drop_length]⟩
      | some i =>
        rw [hscan] at h
        injection h with h1 h2
        exact ⟨i, h2.symm⟩

theorem code_sound {s : List Char} {v : Segment} {r : List Char}
    (h : code s = some (v, r)) : SoundSeg s v r := by
  unfold code at h
  cases h1 : tag_no_case "[code]".data s with
  | none => rw [h1] at h; exact absurd h (by simp)
  | some s1 =>
    rw [h1] at h
    dsimp only at h
    cases h2 : take_until_no_case "[/code]".data s1 with
    | none => rw [h2] at h; exact absurd h (by simp)
    | some p =>
      obtain ⟨body, s2⟩ := p
      rw [h2] at h
      dsimp only at h
      cases h3 : tag_no_case "[/code]".data s2 with
      | none => rw [h3] at h; exact absurd h (by simp)
      | some s3 =>
        rw [h3] at h
        dsimp only at h
        injection h with h'
        injection h' with hv hr
        subst hv; subst hr
        obtain ⟨hl1, he1⟩ := tag_no_case_eq h1
        obtain ⟨i, hb, hs2, hl2⟩ := take_until_no_case_eq h2
        obtain ⟨hl3, he3⟩ := tag_no_case_eq h3
        have hsuf1 : SuffixOf s1 s := ⟨_, he1⟩
        have hsuf2 : SuffixOf s2 s := suffix_trans ⟨i, hs2⟩ hsuf1
        constructor
        · exact suffix_trans ⟨_, he3⟩ hsuf2
        · intro k hk
          cases hk
          exact occurs_of_suffix hsuf2 (occurs_of_leads hl2)

theorem image_sound {s : List Char} {v : Segment} {r : List Char}
    (h : image s = some (v, r)) : SoundSeg s v r := by
  unfold image at h
  cases h1 : tag_no_case "[img]".data s with
  | none => rw [h1] at h; exact absurd h (by simp)
  | some s1 =>
    rw [h1] at h
    dsimp only at h
    cases h2 : take_until_no_case "[/img]".data s1 with
    | none => rw [h2] at h; exact absurd h (by simp)
    | some p =>
      obtain ⟨src, s2⟩ := p
      rw [h2] at h
      dsimp only at h
      cases h3 : tag_no_case "[/img]".data s2 with
      | none => rw [h3] at h; exact absurd h (by simp)
      | some s3 =>
        rw [h3] at h
        dsimp only at h
        injection h with h'
        injection h' with hv hr
        subst hv; subst hr
        obtain ⟨hl1, he1⟩ := tag_no_case_eq h1
        obtain ⟨i, hb, hs2, hl2⟩ := take_until_no_case_eq h2
        obtain ⟨hl3, he3⟩ := tag_no_case_eq h3
        have hsuf1 : SuffixOf s1 s := ⟨_, he1⟩
        have hsuf2 : SuffixOf s2 s := suffix_trans ⟨i, hs2⟩ hsuf1
        constructor
        · exact suffix_trans ⟨_, he3⟩ hsuf2
        · intro k hk
          cases hk
          exact occurs_of_suffix hsuf2 (occurs_of_leads hl2)

theorem url_bare_sound {s : List Char} {v : Segment} {r : List Char}
    (h : url_bare s = some (v, r)) : SoundSeg s v r := by
  unfold url_bare at h
  cases h1 : tag_no_case "[url]".data s with
  | none => rw [h1] at h; exact absurd h (by simp)
  | some s1 =>
    rw [h1] at h
    dsimp only at h
    cases h2 : take_until_no_case "[/url]".data s1 with
    | none => rw [h2] at h; exact absurd h (by simp)
    | some p =>
      obtain ⟨body, s2⟩ := p
      rw [h2] at h
      dsimp only at h
      cases h3 : tag_no_case "[/url]".data s2 with
      | none => rw [h3] at h; exact absurd h (by simp)
      | some s3 =>
        rw [h3] at h
        dsimp only at h
        injection h with h'
        injection h' with hv hr
        subst hv; subst hr
        obtain ⟨hl1, he1⟩ := tag_no_case_eq h1
        obtain ⟨i, hb, hs2, hl2⟩ := take_until_no_case_eq h2
        obtain ⟨hl3, he3⟩ := tag_no_case_eq h3
        have hsuf1 : SuffixOf s1 s := ⟨_, he1⟩
        have hsuf2 : SuffixOf s2 s := suffix_trans ⟨i, hs2⟩ hsuf1
        have hocc : occurs_no_case "[/url]".data s = true :=
          occurs_of_suffix hsuf2 (occurs_of_leads hl2)
        constructor
        · exact suffix_trans ⟨_, he3⟩ hsuf2
        · intro k hk
          cases hk with
          | link_self => exact hocc
          | link_child _ _ hmem hchild =>
            rw [List.mem_singleton] at hmem
            subst hmem
            cases hchild

theorem rgb_color_suffix {s : List Char} {v : Nat × Nat × Nat}
    {r : List Char} (h : rgb_color s = some (v, r)) : SuffixOf r s := by
  unfold rgb_color at h
  cases h1 : char_tok '#' s with
  | none => rw [h1] at h; exact absurd h (by simp)
  | some s1 =>
    rw [h1] at h
    dsimp only at h
    cases h2 : span1 is_hex_digit s1 with
    | none => rw [h2] at h; exact absurd h (by simp)
    | some p =>
      obtain ⟨digits, rest⟩ := p
      rw [h2] at h
      dsimp only at h
      have hsuf : SuffixOf rest s :=
        suffix_trans (span1_suffix h2) (char_tok_suffix h1)
      match digits with
      | [] => exact absurd h (by simp)
      | [a] => exact absurd h (by simp)
      | [a, b] => exact absurd h (by simp)
      | [a, b, c] =>
        injection h with h'
        injection h' with hv hr
        subst hr; exact hsuf
      | [a, b, c, d] => exact absurd h (by simp)
      | [a, b, c, d, e] => exact absurd h (by simp)
      | [a, b, c, d, e, f] =>
        injection h with h'
        injection h' with hv hr
        subst hr; exact hsuf
      | a :: b :: c :: d :: e :: f :: g :: tl => exact absurd h (by simp)

theorem css_color_suffix {s : List Char} {v : Nat × Nat × Nat}
    {r : List Char} (h : css_color s = some (v, r)) : SuffixOf r s := by
  unfold css_color at h
  cases h1 : span1 Char.isAlphanum s with
  | none => rw [h1] at h; exact absurd h (by simp)
  | some p =>
    obtain ⟨name, rest⟩ := p
    rw [h1] at h
    dsimp only at h
    cases h2 : palette_from_str name with
    | none => rw [h2] at h; exact absurd h (by simp)
    | some c =>
      rw [h2] at h
      dsimp only at h
      injection h with h'
      injection h' with hv hr
      subst hr
      exact span1_suffix h1

theorem color_head_suffix {s : List Char} {v : Nat × Nat × Nat}
    {r : List Char} (h : color_head s = some (v, r)) : SuffixOf r s := by
  unfold color_head at h
  cases h1 : tag_no_case "[color=".data s with
  | none => rw [h1] at h; exact absurd h (by simp)
  | some s1 =>
    rw [h1] at h
    dsimp only at h
    obtain ⟨_, he1⟩ := tag_no_case_eq h1
    have hsuf1 : SuffixOf s1 s := ⟨_, he1⟩
    cases h2 : (match rgb_color s1 with
      | some r => some r
      | none => css_color s1) with
    | none => rw [h2] at h; exact absurd h (by simp)
    | some p =>
      obtain ⟨c, s2⟩ := p
      rw [h2] at h
      dsimp only at h
      have hsuf2 : SuffixOf s2 s1 := by
        revert h2
        cases h3 : rgb_color s1 with
        | some q =>
          intro h2
          injection h2 with h2'
          subst h2'
          exact rgb_color_suffix h3
        | none =>
          intro h2
          exact css_color_suffix h2
      cases h4 : char_tok ']' s2 with
      | none => rw [h4] at h; exact absurd h (by simp)
      | some s3 =>
        rw [h4] at h
        dsimp only at h
        injection h with h'
        injection h' with hv hr
        subst hr
        exact suffix_trans (char_tok_suffix h4) (suffix_trans hsuf2 hsuf1)

theorem size_head_suffix {s : List Char} {n : Nat} {r : List Char}
    (h : size_head s = some (n, r)) : SuffixOf r s := by
  unfold size_head at h
  cases h1 : tag_no_case "[size=".data s with
  | none => rw [h1] at h; exact absurd h (by simp)
  | some s1 =>
    rw [h1] at h
    dsimp only at h
    obtain ⟨_, he1⟩ := tag_no_case_eq h1
    cases h2 : span1 Char.isDigit s1 with
    | none => rw [h2] at h; exact absurd h (by simp)
    | some p =>
      obtain ⟨ds, s2⟩ := p
      rw [h2] at h
      dsimp only at h
      cases h3 : char_tok ']' s2 with
      | none => rw [h3] at h; exact absurd h (by simp)
      | some s3 =>
        rw [h3] at h
        dsimp only at h
        split at h
        · split at h
          · injection h with h'
            injection h' with hv hr
            subst hr
            exact suffix_trans (char_tok_suffix h3)
              (suffix_trans (span1_suffix h2) ⟨_, he1⟩)
          · exact absurd h (by simp)
        · exact absurd h (by simp)

theorem qhead_suffix {s : List Char} {a : Option (List Char)}
    {r : List Char} (h : qhead s = some (a, r)) : SuffixOf r s := by
  unfold qhead at h
  cases h1 : tag_no_case "[quote".data s with
  | none => rw [h1] at h; exact absurd h (by simp)
  | some s1 =>
    rw [h1] at h
    dsimp only at h
    obtain ⟨_, he1⟩ := tag_no_case_eq h1
    have hsuf1 : SuffixOf s1 s := ⟨_, he1⟩
    cases h2 : tag_lit "=\"".data s1 with
    | some s2 =>
      rw [h2] at h
      dsimp only at h
      cases h3 : take_until_and_consume "\"".data s2 with
      | none => rw [h3] at h; exact absurd h (by simp)
      | some p =>
        obtain ⟨name, s3⟩ := p
        rw [h3] at h
        dsimp only at h
        cases h4 : char_tok ']' s3 with
        | none => rw [h4] at h; exact absurd h (by simp)
        | some s4 =>
          rw [h4] at h
          dsimp only at h
          injection h with h'
          injection h' with hv hr
          subst hr
          exact suffix_trans (char_tok_suffix h4)
            (suffix_trans (take_until_and_consume_suffix h3)
              (suffix_trans (tag_lit_suffix h2) hsuf1))
    | none =>
      rw [h2] at h
      dsimp only at h
      cases h3 : char_tok ']' s1 with
      | none => rw [h3] at h; exact absurd h (by simp)
      | some s2 =>
        rw [h3] at h
        dsimp only at h
        injection h with h'
        injection h' with hv hr
        subst hr
        exact suffix_trans (char_tok_suffix h3) hsuf1

theorem listhead_suffix {s : List Char} {st : ListStyle} {r : List Char}
    (h : listhead s = some (st, r)) : SuffixOf r s := by
  unfold listhead at h
  cases h1 : tag_no_case "[list".data s with
  | none => rw [h1] at h; exact absurd h (by simp)
  | some s1 =>
    rw [h1] at h
    dsimp only at h
    obtain ⟨_, he1⟩ := tag_no_case_eq h1
    have hsuf1 : SuffixOf s1 s := ⟨_, he1⟩
    cases h2 : char_tok '=' s1 with
    | some s2 =>
      rw [h2] at h
      dsimp only at h
      have hsuf2 : SuffixOf s2 s := suffix_trans (char_tok_suffix h2) hsuf1
      cases h3 : char_tok 'a' s2 with
      | some s3 =>
        rw [h3] at h
        dsimp only at h
        cases h4 : char_tok ']' s3 with
        | none => rw [h4] at h; exact absurd h (by simp)
        | some s4 =>
          rw [h4] at h
          dsimp only at h
          injection h with h'
          injection h' with hv hr
          subst hr
          exact suffix_trans (char_tok_suffix h4)
            (suffix_trans (char_tok_suffix h3) hsuf2)
      | none =>
        rw [h3] at h
        dsimp only at h
        cases h5 : char_tok '1' s2 with
        | some s3 =>
          rw [h5] at h
          dsimp only at h
          cases h4 : char_tok ']' s3 with
          | none => rw [h4] at h; exact absurd h (by simp)
          | some s4 =>
            rw [h4] at h
            dsimp only at h
            injection h with h'
            injection h' with hv hr
            subst hr
            exact suffix_trans (char_tok_suffix h4)
              (suffix_trans (char_tok_suffix h5) hsuf2)
        | none =>
          rw [h5] at h
          dsimp only at h
          cases h4 : char_tok ']' s1 with
          | none => rw [h4] at h; exact absurd h (by simp)
          | some s2' =>
            rw [h4] at h
            dsimp only at h
            injection h with h'
            injection h' with hv hr
            subst hr
            exact suffix_trans (char_tok_suffix h4) hsuf1
    | none =>
      rw [h2] at h
      dsimp only at h
      cases h3 : char_tok ']' s1 with
      | none => rw [h3] at h; exact absurd h (by simp)
      | some s2 =>
        rw [h3] at h
        dsimp only at h
        injection h with h'
        injection h' with hv hr
        subst hr
        exact suffix_trans (char_tok_suffix h3) hsuf1

theorem sound_wrap {s s1 r1 r2 ct : List Char} {body : List Segment}
    (hsuf1 : SuffixOf s1 s) (hmany : SoundList s1 body r1)
    (htag : tag_no_case ct r1 = some r2) :
    SuffixOf r2 s ∧ occurs_no_case ct s = true ∧
    (∀ k seg, seg ∈ body → SegHas k seg →
      occurs_no_case (closer_of k) s = true) := by
  obtain ⟨hsufr1, hkinds⟩ := hmany
  obtain ⟨hl, he⟩ := tag_no_case_eq htag
  have hr1s : SuffixOf r1 s := suffix_trans hsufr1 hsuf1
  refine ⟨suffix_trans ⟨_, he⟩ hr1s,
    occurs_of_suffix hr1s (occurs_of_leads hl), ?_⟩
  intro k seg hmem hk
  exact occurs_of_suffix hsuf1 (hkinds k seg hmem hk)

/-- Joint soundness of the whole recognizer family, by induction on the
fuel: every produced value leaves a suffix of its input unconsumed, and
every construct in a produced tree presupposes a caseless occurrence of
its closing literal in the input. -/
theorem parser_sound : ∀ f : Nat,
    (∀ s t v r, segment f s t = .done v r → SoundSeg s v r) ∧
    (∀ s v r, coded_segment f s = .done v r → SoundSeg s v r) ∧
    (∀ s v r, decorated f s = .done v r → SoundSeg s v r) ∧
    (∀ ot ct s body r, simple_tag f ot ct s = .done body r →
      occurs_no_case ct s = true ∧ SoundList s body r) ∧
    (∀ s v r, color f s = .done v r → SoundSeg s v r) ∧
    (∀ s v r, size f s = .done v r → SoundSeg s v r) ∧
    (∀ s v r, list f s = .done v r → SoundSeg s v r) ∧
    (∀ s items r, list_items f s = .done items r → SoundItems s items r) ∧
    (∀ s v r, quote f s = .done v r → SoundSeg s v r) ∧
    (∀ s v r, url f s = .done v r → SoundSeg s v r) ∧
    (∀ s v r, url_quoted f s = .done v r → SoundSeg s v r) ∧
    (∀ s v r, url_plain f s = .done v r → SoundSeg s v r) ∧
    (∀ t s segs r, many0_segment f t s = .done segs r → SoundList s segs r) := by
  intro f
  induction f with
  | zero =>
    refine ⟨fun s t v r h => by simp [segment] at h,
      fun s v r h => by simp [coded_segment] at h,
      fun s v r h => by simp [decorated] at h,
      fun ot ct s body r h => by simp [simple_tag] at h,
      fun s v r h => by simp [color] at h,
      fun s v r h => by simp [size] at h,
      fun s v r h => by simp [list] at h,
      fun s items r h => by simp [list_items] at h,
      fun s v r h => by simp [quote] at h,
      fun s v r h => by simp [url] at h,
      fun s v r h => by simp [url_quoted] at h,
      fun s v r h => by simp [url_plain] at h,
      fun t s segs r h => by simp [many0_segment] at h⟩
  | succ f ih =>
    obtain ⟨IHseg, IHcod, IHdec, IHsim, IHcol, IHsiz, IHlst, IHitm, IHquo,
      IHurl, IHuq, IHup, IHmny⟩ := ih
    refine ⟨?_, ?_, ?_, ?_, ?_, ?_, ?_, ?_, ?_, ?_, ?_, ?_, ?_⟩
    · -- segment
      intro s t v r h
      simp only [segment] at h
      cases hc : coded_segment f s with
      | done v' r' =>
        rw [hc] at h
        dsimp only at h
        injection h with hv hr
        subst hv; subst hr
        exact IHcod s v' r' hc
      | out => rw [hc] at h; exact absurd h (by simp)
      | fail =>
        rw [hc] at h
        dsimp only at h
        cases ht : text_segment (coded_segment f) s t with
        | done txt rest =>
          rw [ht] at h
          dsimp only at h
          injection h with hv hr
          subst hv; subst hr
          refine ⟨text_suffix ht, ?_⟩
          intro k hk
          cases hk
        | out => rw [ht] at h; exact absurd h (by simp)
        | fail => rw [ht] at h; exact absurd h (by simp)
    · -- coded_segment
      intro s v r h
      simp only [coded_segment] at h
      cases hd : decorated f s with
      | done v' r' =>
        rw [hd] at h
        dsimp only at h
        injection h with hv hr
        subst hv; subst hr
        exact IHdec s v' r' hd
      | out => rw [hd] at h; exact absurd h (by simp)
      | fail =>
        rw [hd] at h
        dsimp only at h
        cases hcode : code s with
        | some p =>
          obtain ⟨v0, r0⟩ := p
          rw [hcode] at h
          dsimp only at h
          injection h with hv hr
          subst hv; subst hr
          exact code_sound hcode
        | none =>
          rw [hcode] at h
          dsimp only at h
          cases himg : image s with
          | some p =>
            obtain ⟨v0, r0⟩ := p
            rw [himg] at h
            dsimp only at h
            injection h with hv hr
            subst hv; subst hr
            exact image_sound himg
          | none =>
            rw [himg] at h
            dsimp only at h
            cases hl : list f s with
            | done v' r' =>
              rw [hl] at h
              dsimp only at h
              injection h with hv hr
              subst hv; subst hr
              exact IHlst s v' r' hl
            | out => rw [hl] at h; exact absurd h (by simp)
            | fail =>
              rw [hl] at h
              dsimp only at h
              cases hq : quote f s with
              | done v' r' =>
                rw [hq] at h
                dsimp only at h
                injection h with hv hr
                subst hv; subst hr
                exact IHquo s v' r' hq
              | out => rw [hq] at h; exact absurd h (by simp)
              | fail =>
                rw [hq] at h
                dsimp only at h
                exact IHurl s v r h
    · -- decorated
      intro s v r h
      simp only [decorated] at h
      cases hb : simple_tag f "[b]".data "[/b]".data s with
      | done body r0 =>
        rw [hb] at h
        dsimp only at h
        injection h with hv hr
        subst hv; subst hr
        obtain ⟨hocc, hsuf, hkinds⟩ := IHsim _ _ _ _ _ hb
        refine ⟨hsuf, ?_⟩
        intro k hk
        cases hk with
        | deco_self => exact hocc
        | deco_child _ _ hmem hchild => exact hkinds k _ hmem hchild
      | out => rw [hb] at h; exact absurd h (by simp)
      | fail =>
        rw [hb] at h
        dsimp only at h
        cases hi : simple_tag f "[i]".data "[/i]".data s with
        | done body r0 =>
          rw [hi] at h
          dsimp only at h
          injection h with hv hr
          subst hv; subst hr
          obtain ⟨hocc, hsuf, hkinds⟩ := IHsim _ _ _ _ _ hi
          refine ⟨hsuf, ?_⟩
          intro k hk
          cases hk with
          | deco_self => exact hocc
          | deco_child _ _ hmem hchild => exact hkinds k _ hmem hchild
        | out => rw [hi] at h; exact absurd h (by simp)
        | fail =>
          rw [hi] at h
          dsimp only at h
          cases hu : simple_tag f "[u]".data "[/u]".data s with
          | done body r0 =>
            rw [hu] at h
            dsimp only at h
            injection h with hv hr
            subst hv; subst hr
            obtain ⟨hocc, hsuf, hkinds⟩ := IHsim _ _ _ _ _ hu
            refine ⟨hsuf, ?_⟩
            intro k hk
            cases hk with
            | deco_self => exact hocc
            | deco_child _ _ hmem hchild => exact hkinds k _ hmem hchild
          | out => rw [hu] at h; exact absurd h (by simp)
          | fail =>
            rw [hu] at h
            dsimp only at h
            cases hce : simple_tag f "[center]".data "[/center]".data s with
            | done body r0 =>
              rw [hce] at h
              dsimp only at h
              injection h with hv hr
              subst hv; subst hr
              obtain ⟨hocc, hsuf, hkinds⟩ := IHsim _ _ _ _ _ hce
              refine ⟨hsuf, ?_⟩
              intro k hk
              cases hk with
              | deco_self => exact hocc
              | deco_child _ _ hmem hchild => exact hkinds k _ hmem hchild
            | out => rw [hce] at h; exact absurd h (by simp)
            | fail =>
              rw [hce] at h
              dsimp only at h
              cases hco : color f s with
              | done v' r' =>
                rw [hco] at h
                dsimp only at h
                injection h with hv hr
                subst hv; subst hr
                exact IHcol s v' r' hco
              | out => rw [hco] at h; exact absurd h (by simp)
              | fail =>
                rw [hco] at h
                dsimp only at h
                exact IHsiz s v r h
    · -- simple_tag
      intro ot ct s body r h
      simp only [simple_tag] at h
      cases htag : tag_no_case ot s with
      | none => rw [htag] at h; exact absurd h (by simp)
      | some s1 =>
        rw [htag] at h
        dsimp only at h
        cases hm : many0_segment f (.lit ct) s1 with
        | out => rw [hm] at h; exact absurd h (by simp)
        | fail => rw [hm] at h; exact absurd h (by simp)
        | done body0 r1 =>
          rw [hm] at h
          dsimp only at h
          cases htag2 : tag_no_case ct r1 with
          | none => rw [htag2] at h; exact absurd h (by simp)
          | some r2 =>
            rw [htag2] at h
            dsimp only at h
            injection h with hv hr
            subst hv; subst hr
            obtain ⟨_, he1⟩ := tag_no_case_eq htag
            obtain ⟨hsuf, hocc, hkinds⟩ :=
              sound_wrap ⟨_, he1⟩ (IHmny _ _ _ _ hm) htag2
            exact ⟨hocc, hsuf, hkinds⟩
    · -- color
      intro s v r h
      simp only [color] at h
      cases hch : color_head s with
      | none => rw [hch] at h; exact absurd h (by simp)
      | some p =>
        obtain ⟨⟨r0, g0, b0⟩, s1⟩ := p
        rw [hch] at h
        dsimp only at h
        cases hm : many0_segment f (.lit "[/color]".data) s1 with
        | out => rw [hm] at h; exact absurd h (by simp)
        | fail => rw [hm] at h; exact absurd h (by simp)
        | done body r1 =>
          rw [hm] at h
          dsimp only at h
          cases htag2 : tag_no_case "[/color]".data r1 with
          | none => rw [htag2] at h; exact absurd h (by simp)
          | some r2 =>
            rw [htag2] at h
            dsimp only at h
            injection h with hv hr
            subst hv; subst hr
            obtain ⟨hsuf, hocc, hkinds⟩ :=
              sound_wrap (color_head_suffix hch) (IHmny _ _ _ _ hm) htag2
            refine ⟨hsuf, ?_⟩
            intro k hk
            cases hk with
            | deco_self => exact hocc
            | deco_child _ _ hmem hchild => exact hkinds k _ hmem hchild
    · -- size
      intro s v r h
      simp only [size] at h
      cases hsh : size_head s with
      | none => rw [hsh] at h; exact absurd h (by simp)
      | some p =>
        obtain ⟨n0, s1⟩ := p
        rw [hsh] at h
        dsimp only at h
        cases hm : many0_segment f (.lit "[/size]".data) s1 with
        | out => rw [hm] at h; exact absurd h (by simp)
        | fail => rw [hm] at h; exact absurd h (by simp)
        | done body r1 =>
          rw [hm] at h
          dsimp only at h
          cases htag2 : tag_no_case "[/size]".data r1 with
          | none => rw [htag2] at h; exact absurd h (by simp)
          | some r2 =>
            rw [htag2] at h
            dsimp only at h
            injection h with hv hr
            subst hv; subst hr
            obtain ⟨hsuf, hocc, hkinds⟩ :=
              sound_wrap (size_head_suffix hsh) (IHmny _ _ _ _ hm) htag2
            refine ⟨hsuf, ?_⟩
            intro k hk
            cases hk with
            | deco_self => exact hocc
            | deco_child _ _ hmem hchild => exact hkinds k _ hmem hchild
    · -- list
      intro s v r h
      simp only [list] at h
      cases hlh : listhead s with
      | none => rw [hlh] at h; exact absurd h (by simp)
      | some p =>
        obtain ⟨style, s1⟩ := p
        rw [hlh] at h
        dsimp only at h
        cases hit : list_items f s1 with
        | out => rw [hit] at h; exact absurd h (by simp)
        | fail => rw [hit] at h; exact absurd h (by simp)
        | done items r1 =>
          rw [hit] at h
          dsimp only at h
          cases htag2 : tag_no_case "[/list]".data r1 with
          | none => rw [htag2] at h; exact absurd h (by simp)
          | some r2 =>
            rw [htag2] at h
            dsimp only at h
            injection h with hv hr
            subst hv; subst hr
            obtain ⟨hsufit, hkinds⟩ := IHitm _ _ _ hit
            obtain ⟨hl2, he2⟩ := tag_no_case_eq htag2
            have hsuf1 : SuffixOf s1 s := listhead_suffix hlh
            have hr1s : SuffixOf r1 s := suffix_trans hsufit hsuf1
            refine ⟨suffix_trans ⟨_, he2⟩ hr1s, ?_⟩
            intro k hk
            cases hk with
            | list_self => exact occurs_of_suffix hr1s (occurs_of_leads hl2)
            | list_child _ _ hitem hmem hchild =>
              exact occurs_of_suffix hsuf1
                (hkinds k _ _ hitem hmem hchild)
    · -- list_items
      intro s items r h
      simp only [list_items] at h
      cases htag : tag_no_case "[*]".data s with
      | none =>
        rw [htag] at h
        dsimp only at h
        injection h with hv hr
        subst hv; subst hr
        refine ⟨suffix_refl s, ?_⟩
        intro k seg item hitem hmem hk
        simp at hitem
      | some s1 =>
        rw [htag] at h
        dsimp only at h
        obtain ⟨_, he1⟩ := tag_no_case_eq htag
        have hsuf1 : SuffixOf s1 s := ⟨_, he1⟩
        cases hm : many0_segment f (.two "[*]".data "[/list]".data) s1 with
        | out => rw [hm] at h; exact absurd h (by simp)
        | fail =>
          rw [hm] at h
          dsimp only at h
          injection h with hv hr
          subst hv; subst hr
          refine ⟨suffix_refl s, ?_⟩
          intro k seg item hitem hmem hk
          simp at hitem
        | done item0 r1 =>
          rw [hm] at h
          dsimp only at h
          split at h
          · exact absurd h (by simp)
          · cases hrec : list_items f r1 with
            | out => rw [hrec] at h; exact absurd h (by simp)
            | fail => rw [hrec] at h; exact absurd h (by simp)
            | done items1 r2 =>
              rw [hrec] at h
              dsimp only at h
              injection h with hv hr
              subst hv; subst hr
              obtain ⟨hsufm, hkindsm⟩ := IHmny _ _ _ _ hm
              obtain ⟨hsufr, hkindsr⟩ := IHitm _ _ _ hrec
              have hr1s : SuffixOf r1 s := suffix_trans hsufm hsuf1
              refine ⟨suffix_trans hsufr hr1s, ?_⟩
              intro k seg item hitem hmem hk
              cases hitem with
              | head =>
                exact occurs_of_suffix hsuf1 (hkindsm k seg hmem hk)
              | tail _ htl =>
                exact occurs_of_suffix hr1s
                  (hkindsr k seg item htl hmem hk)
    · -- quote
      intro s v r h
      simp only [quote] at h
      cases hqh : qhead s with
      | none => rw [hqh] at h; exact absurd h (by simp)
      | some p =>
        obtain ⟨att, s1⟩ := p
        rw [hqh] at h
        dsimp only at h
        cases hm : many0_segment f (.lit "[/quote]".data) s1 with
        | out => rw [hm] at h; exact absurd h (by simp)
        | fail => rw [hm] at h; exact absurd h (by simp)
        | done body r1 =>
          rw [hm] at h
          dsimp only at h
          cases htag2 : tag_no_case "[/quote]".data r1 with
          | none => rw [htag2] at h; exact absurd h (by simp)
          | some r2 =>
            rw [htag2] at h
            dsimp only at h
            injection h with hv hr
            subst hv; subst hr
            obtain ⟨hsuf, hocc, hkinds⟩ :=
              sound_wrap (qhead_suffix hqh) (IHmny _ _ _ _ hm) htag2
            refine ⟨hsuf, ?_⟩
            intro k hk
            cases hk with
            | quote_self => exact hocc
            | quote_child _ _ hmem hchild => exact hkinds k _ hmem hchild
    · -- url
      intro s v r h
      simp only [url] at h
      cases hub : url_bare s with
      | some p =>
        obtain ⟨v0, r0⟩ := p
        rw [hub] at h
        dsimp only at h
        injection h with hv hr
        subst hv; subst hr
        exact url_bare_sound hub
      | none =>
        rw [hub] at h
        dsimp only at h
        cases huq : url_quoted f s with
        | done v' r' =>
          rw [huq] at h
          dsimp only at h
          injection h with hv hr
          subst hv; subst hr
          exact IHuq s v' r' huq
        | out => rw [huq] at h; exact absurd h (by simp)
        | fail =>
          rw [huq] at h
          dsimp only at h
          exact IHup s v r h
    · -- url_quoted
      intro s v r h
      simp only [url_quoted] at h
      cases htag : tag_no_case "[url=\"".data s with
      | none => rw [htag] at h; exact absurd h (by simp)
      | some s1 =>
        rw [htag] at h
        dsimp only at h
        cases htu : take_until_and_consume "\"]".data s1 with
        | none => rw [htu] at h; exact absurd h (by simp)
        | some p =>
          obtain ⟨target, s2⟩ := p
          rw [htu] at h
          dsimp only at h
          cases hm : many0_segment f (.lit "[/url]".data) s2 with
          | out => rw [hm] at h; exact absurd h (by simp)
          | fail => rw [hm] at h; exact absurd h (by simp)
          | done txt r1 =>
            rw [hm] at h
            dsimp only at h
            cases htag2 : tag_no_case "[/url]".data r1 with
            | none => rw [htag2] at h; exact absurd h (by simp)
            | some r2 =>
              rw [htag2] at h
              dsimp only at h
              injection h with hv hr
              subst hv; subst hr
              obtain ⟨_, he1⟩ := tag_no_case_eq htag
              have hsuf2 : SuffixOf s2 s :=
                suffix_trans (take_until_and_consume_suffix htu) ⟨_, he1⟩
              obtain ⟨hsuf, hocc, hkinds⟩ :=
                sound_wrap hsuf2 (IHmny _ _ _ _ hm) htag2
              refine ⟨hsuf, ?_⟩
              intro k hk
              cases hk with
              | link_self => exact hocc
              | link_child _ _ hmem hchild => exact hkinds k _ hmem hchild
    · -- url_plain
      intro s v r h
      simp only [url_plain] at h
      cases htag : tag_no_case "[url=".data s with
      | none => rw [htag] at h; exact absurd h (by simp)
      | some s1 =>
        rw [htag] at h
        dsimp only at h
        cases htu : take_until_and_consume "]".data s1 with
        | none => rw [htu] at h; exact absurd h (by simp)
        | some p =>
          obtain ⟨target, s2⟩ := p
          rw [htu] at h
          dsimp only at h
          cases hm : many0_segment f (.lit "[/url]".data) s2 with
          | out => rw [hm] at h; exact absurd h (by simp)
          | fail => rw [hm] at h; exact absurd h (by simp)
          | done txt r1 =>
            rw [hm] at h
            dsimp only at h
            cases htag2 : tag_no_case "[/url]".data r1 with
            | none => rw [htag2] at h; exact absurd h (by simp)
            | some r2 =>
              rw [htag2] at h
              dsimp only at h
              injection h with hv hr
              subst hv; subst hr
              obtain ⟨_, he1⟩ := tag_no_case_eq htag
              have hsuf2 : SuffixOf s2 s :=
                suffix_trans (take_until_and_consume_suffix htu) ⟨_, he1⟩
              obtain ⟨hsuf, hocc, hkinds⟩ :=
                sound_wrap hsuf2 (IHmny _ _ _ _ hm) htag2
              refine ⟨hsuf, ?_⟩
              intro k hk
              cases hk with
              | link_self => exact hocc
              | link_child _ _ hmem hchild => exact hkinds k _ hmem hchild
    · -- many0_segment
      intro t s segs r h
      simp only [many0_segment] at h
      cases hseg : segment f s t with
      | fail =>
        rw [hseg] at h
        dsimp only at h
        injection h with hv hr
        subst hv; subst hr
        refine ⟨suffix_refl s, ?_⟩
        intro k seg hmem hk
        simp at hmem
      | out => rw [hseg] at h; exact absurd h (by simp)
      | done seg0 rest =>
        rw [hseg] at h
        dsimp only at h
        split at h
        · exact absurd h (by simp)
        · cases hm : many0_segment f t rest with
          | out => rw [hm] at h; exact absurd h (by simp)
          | fail => rw [hm] at h; exact absurd h (by simp)
          | done segs1 r1 =>
            rw [hm] at h
            dsimp only at h
            injection h with hv hr
            subst hv; subst hr
            obtain ⟨hsufseg, hkindseg⟩ := IHseg _ _ _ _ hseg
            obtain ⟨hsufm, hkindsm⟩ := IHmny _ _ _ _ hm
            refine ⟨suffix_trans hsufm hsufseg, ?_⟩
            intro k seg hmem hk
            cases hmem with
            | head => exact hkindseg k hk
            | tail _ htl =>
              exact occurs_of_suffix hsufseg (hkindsm k seg htl hk)

/-- Soundness of the parse loop: every construct in the returned tree
presupposes a caseless occurrence of its closing literal in the input. -/
theorem _parse_sound : ∀ (f : Nat) (s : List Char) (out : List Segment),
    _parse f s = some out →
    ∀ k seg, seg ∈ out → SegHas k seg →
      occurs_no_case (closer_of k) s = true := by
  intro f
  induction f with
  | zero => intro s out h; simp [_parse] at h
  | succ f ih =>
    intro s out h k seg hmem hk
    simp only [_parse] at h
    by_cases he : s.isEmpty = true
    · rw [if_pos he] at h
      injection h with h'
      subst h'
      simp at hmem
    · rw [if_neg he] at h
      cases hseg : segment f s .unit with
      | done seg0 rest =>
        rw [hseg] at h
        dsimp only at h
        cases hrec : _parse f rest with
        | none => rw [hrec] at h; exact absurd h (by simp)
        | some segs =>
          rw [hrec] at h
          dsimp only at h
          injection h with h'
          subst h'
          obtain ⟨hsuf, hkinds⟩ := (parser_sound f).1 _ _ _ _ hseg
          cases hmem with
          | head => exact hkinds k hk
          | tail _ htl =>
            exact occurs_of_suffix hsuf (ih rest segs hrec k seg htl hk)
      | out => rw [hseg] at h; exact absurd h (by simp)
      | fail => rw [hseg] at h; exact absurd h (by simp)

/-- C2: if the closing literal of a construct does not occur (ASCII
caselessly) anywhere in the input — in particular when an opening tag
appears with no matching closer after it — then the parse tree contains
no node of that construct (no Decorated node of the corresponding style,
no Quote, List, Link or Code node); and parse("[b]unterminated") is
exactly one Text segment equal to the whole input. -/
theorem c2_no_closer_no_node :
    (∀ (s : String) (out : List Segment) (k : TagKind),
      parse s = some out → occurs_no_case (closer_of k) s.data = false →
      ∀ seg ∈ out, ¬ SegHas k seg) ∧
    parse "[b]unterminated" = some [.Text "[b]unterminated".data] := by
  refine ⟨?_, rfl⟩
  intro s out k hp hocc seg hmem hk
  have ht := _parse_sound (parse_fuel s.data) s.data out hp k seg hmem hk
  rw [hocc] at ht
  exact Bool.noConfusion ht

/-- Witness for C2: `[/b]` occurs nowhere in `[b]x`, so the parse of
`[b]x` (one Text segment) contains no Bold node. -/
theorem c2_witness : ¬ SegHas .Bold (.Text "[b]x".data) :=
  c2_no_closer_no_node.1 "[b]x" [.Text "[b]x".data] .Bold rfl (by decide)
    (.Text "[b]x".data) (by simp)

/-- C8: the render traversal equals running the canonical depth-first
pre-order hook sequence left to right: hooks are invoked in exactly that
order, the first hook error aborts the remaining traversal immediately
(no further hook calls) and is returned unmodified, and if no hook fails
the render succeeds (this is the behavior of `run_events`). -/
theorem c8_render_event_order {σ ε : Type}
    (h : RenderEvent → σ → Except ε σ) (segs : List Segment) (st : σ) :
    render h segs st = run_events h (events segs) st :=
  (render_events_aux h (sizeOf segs)).2.1 segs le_rfl st

end Bbcode
